import Mathlib

/-!
Verification of the B-tree key/value store and container readers of idblib.py.

Byte strings are modelled as lists of naturals, machine integers as naturals
with explicit bounds, Python exceptions as Option/Except results.  Pages of
the on-disk B-tree are modelled by an inductive tree whose children stand for
the pages reached through their stored page numbers (readpage resolved).
-/

namespace Idb

/-- Byte strings (Python bytes objects) as lists of naturals. -/
abbrev Key := List Nat

/-- Value byte strings. -/
abbrev Val := List Nat

/-- Python bytes comparison: strict lexicographic less-than, as used by
the expressions "k < a[mid].key" and "cur.getkey() < endkey" in idblib.py. -/
def keyLt : Key → Key → Bool
  | [], [] => false
  | [], _ :: _ => true
  | _ :: _, [] => false
  | a :: as, b :: bs => decide (a < b) || (decide (a = b) && keyLt as bs)

theorem keyLt_irrefl (a : Key) : keyLt a a = false := by
  induction a with
  | nil => rfl
  | cons x xs ih => simp [keyLt, ih]

theorem keyLt_trans {a b c : Key} (hab : keyLt a b = true) (hbc : keyLt b c = true) :
    keyLt a c = true := by
  induction a generalizing b c with
  | nil =>
    cases b with
    | nil => simp [keyLt] at hab
    | cons y ys =>
      cases c with
      | nil => simp [keyLt] at hbc
      | cons z zs => simp [keyLt]
  | cons x xs ih =>
    cases b with
    | nil => simp [keyLt] at hab
    | cons y ys =>
      cases c with
      | nil => simp [keyLt] at hbc
      | cons z zs =>
        simp only [keyLt, Bool.or_eq_true, Bool.and_eq_true, decide_eq_true_eq] at *
        rcases hab with h1 | ⟨h1, h1'⟩ <;> rcases hbc with h2 | ⟨h2, h2'⟩
        · exact Or.inl (lt_trans h1 h2)
        · exact Or.inl (h2 ▸ h1)
        · exact Or.inl (h1 ▸ h2)
        · exact Or.inr ⟨h1.trans h2, ih h1' h2'⟩

theorem keyLt_asymm {a b : Key} (hab : keyLt a b = true) : keyLt b a = false := by
  by_contra h
  have hba : keyLt b a = true := by
    cases hknd : keyLt b a
    · exact absurd hknd h
    · rfl
  have := keyLt_trans hab hba
  rw [keyLt_irrefl] at this
  exact Bool.false_ne_true this

theorem keyLt_conn {a b : Key} (hab : keyLt a b = false) (hba : keyLt b a = false) :
    a = b := by
  induction a generalizing b with
  | nil =>
    cases b with
    | nil => rfl
    | cons y ys => simp [keyLt] at hab
  | cons x xs ih =>
    cases b with
    | nil => simp [keyLt] at hba
    | cons y ys =>
      simp only [keyLt, Bool.or_eq_false_iff, Bool.and_eq_false_iff,
        decide_eq_false_iff_not] at hab hba
      obtain ⟨hx, hrest⟩ := hab
      obtain ⟨hy, hrest'⟩ := hba
      have hxy : x = y := by omega
      subst hxy
      rcases hrest with h | h
      · omega
      · rcases hrest' with h' | h'
        · omega
        · rw [ih h h']

theorem keyLt_of_ne_of_not_lt {a b : Key} (hne : a ≠ b) (h : keyLt a b = false) :
    keyLt b a = true := by
  cases hba : keyLt b a
  · exact absurd (keyLt_conn h hba) hne
  · rfl

/-- The upper-bound binary search loop of idblib.binary_search, run over the
list of entry keys; "first" and "last" are the loop variables, the probe index
"mid" is "(first+last)>>1".  Out-of-range probes (never reached when
"last <= a.length") read the empty key. -/
def bsLoop (a : List Key) (k : Key) (first last : Nat) : Nat :=
  if _h : first < last then
    let mid := (first + last) / 2
    if keyLt k (a.getD mid []) then bsLoop a k first mid
    else bsLoop a k (mid + 1) last
  else first
termination_by last - first
decreasing_by
  · omega
  · omega

/-- idblib.binary_search: returns the largest index whose key is at most "k",
or -1 when every key is greater (C++ upper_bound minus one). -/
def binary_search (a : List Key) (k : Key) : Int :=
  (bsLoop a k 0 a.length : Int) - 1

/-- Number of leading keys that are at most "k" (the floor count); on a
strictly ascending list this counts exactly the keys at most "k". -/
def floorCnt : List Key → Key → Nat
  | [], _ => 0
  | x :: xs, k => if keyLt k x then 0 else floorCnt xs k + 1

theorem floorCnt_le_length (a : List Key) (k : Key) : floorCnt a k ≤ a.length := by
  induction a with
  | nil => simp [floorCnt]
  | cons x xs ih =>
    simp only [floorCnt, List.length_cons]
    split <;> omega

theorem floorCnt_lt_prop (a : List Key) (k : Key) :
    ∀ {j : Nat}, j < floorCnt a k → keyLt k (a.getD j []) = false := by
  induction a with
  | nil => intro j hj; simp [floorCnt] at hj
  | cons x xs ih =>
    intro j hj
    cases hkx : keyLt k x with
    | true => simp [floorCnt, hkx] at hj
    | false =>
      simp only [floorCnt, hkx, Bool.false_eq_true, if_false] at hj
      cases j with
      | zero => simpa using hkx
      | succ j' => simpa using ih (by omega)

theorem floorCnt_ge_prop (a : List Key) (k : Key)
    (hs : a.Pairwise (fun x y => keyLt x y = true)) :
    ∀ {j : Nat}, floorCnt a k ≤ j → j < a.length → keyLt k (a.getD j []) = true := by
  induction a with
  | nil => intro j _ hj; simp at hj
  | cons x xs ih =>
    intro j hc hj
    rw [List.pairwise_cons] at hs
    cases hkx : keyLt k x with
    | true =>
      cases j with
      | zero => simpa using hkx
      | succ j' =>
        have hjl : j' < xs.length := by simpa using hj
        have hmem : xs.getD j' [] ∈ xs := by
          rw [List.getD_eq_getElem _ _ hjl]
          exact List.getElem_mem hjl
        simpa using keyLt_trans hkx (hs.1 _ hmem)
    | false =>
      simp only [floorCnt, hkx, Bool.false_eq_true, if_false] at hc
      cases j with
      | zero => omega
      | succ j' => simpa using ih hs.2 (by omega) (by simpa using hj)

theorem bsLoop_spec (a : List Key) (k : Key)
    (hs : a.Pairwise (fun x y => keyLt x y = true)) :
    ∀ (n first last : Nat), last - first ≤ n →
      last ≤ a.length → first ≤ floorCnt a k → floorCnt a k ≤ last →
      bsLoop a k first last = floorCnt a k := by
  intro n
  induction n with
  | zero =>
    intro first last hn _ h1 h2
    rw [bsLoop]
    have hnl : ¬ first < last := by omega
    simp only [hnl, dite_false]
    omega
  | succ m ih =>
    intro first last hn hlen h1 h2
    rw [bsLoop]
    by_cases hfl : first < last
    · simp only [hfl, dite_true]
      have hm1 : first ≤ (first + last) / 2 := by omega
      have hm2 : (first + last) / 2 < last := by omega
      by_cases hk : keyLt k (a.getD ((first + last) / 2) []) = true
      · rw [if_pos hk]
        have hcm : floorCnt a k ≤ (first + last) / 2 := by
          by_contra hcon
          have := floorCnt_lt_prop a k (j := (first + last) / 2) (by omega)
          rw [hk] at this
          simp at this
        exact ih first ((first + last) / 2) (by omega) (by omega) h1 hcm
      · rw [if_neg hk]
        have hcm : (first + last) / 2 < floorCnt a k := by
          by_contra hcon
          exact hk (floorCnt_ge_prop a k hs (by omega) (by omega))
        exact ih ((first + last) / 2 + 1) last (by omega) hlen (by omega) h2
    · simp only [hfl, dite_false]
      omega

/-- On a strictly ascending key list, binary_search computes the floor index:
one less than the number of keys at most "k". -/
theorem binary_search_spec (a : List Key) (k : Key)
    (hs : a.Pairwise (fun x y => keyLt x y = true)) :
    binary_search a k = (floorCnt a k : Int) - 1 := by
  unfold binary_search
  rw [bsLoop_spec a k hs a.length 0 a.length (by omega) (by omega) (by omega)
    (floorCnt_le_length a k)]

/-- A decoded b-tree page (BTree.BasePage).  A page is a leaf when its
preceeding page number is zero, otherwise an index page; the subtree stored
under a page number is inlined in place of the number (readpage resolved), so
"node pre es" holds the preceeding subtree and the index entries
(key, value, child subtree). -/
inductive Page where
  | leaf (index : List (Key × Val)) : Page
  | node (preceeding : Page) (index : List (Key × Val × Page)) : Page

/-- BasePage.isleaf: "self.preceeding == 0". -/
def Page.isleaf : Page → Bool
  | .leaf _ => true
  | .node _ _ => false

/-- BasePage.isindex: "self.preceeding != 0". -/
def Page.isindex : Page → Bool
  | .leaf _ => false
  | .node _ _ => true

/-- Number of entries of the page, "len(self.index)". -/
def Page.count : Page → Nat
  | .leaf es => es.length
  | .node _ es => es.length

/-- Keys of the entries of the page, in stored order. -/
def Page.ikeys : Page → List Key
  | .leaf es => es.map Prod.fst
  | .node _ es => es.map Prod.fst

/-- Values of the entries of the page, in stored order. -/
def Page.ivals : Page → List Val
  | .leaf es => es.map (fun e => e.2)
  | .node _ es => es.map (fun e => e.2.1)

/-- Python list indexing with negative-index wrap; none models IndexError. -/
def pyIdx {α : Type} (l : List α) (i : Int) : Option α :=
  if 0 ≤ i then l.get? i.toNat
  else if (-i).toNat ≤ l.length then l.get? (l.length - (-i).toNat)
  else none

/-- BasePage.getkey: "self.index[ix].key". -/
def Page.getkey (p : Page) (i : Int) : Option Key := pyIdx p.ikeys i

/-- BasePage.getval: "self.index[ix].val". -/
def Page.getval (p : Page) (i : Int) : Option Val := pyIdx p.ivals i

/-- BasePage.getpage: "self.preceeding if ix<0 else self.index[ix].page",
returning the subtree stored under that page number.  On a leaf page the
preceeding number is 0 and entries have no page field, so there is no
subtree to return (modelled as none; the b-tree code never asks). -/
def Page.getpage : Page → Int → Option Page
  | .leaf _, _ => none
  | .node pre es, i =>
    if i < 0 then some pre
    else Option.map (fun e => e.2.2) (es.get? i.toNat)

mutual
/-- In-order list of the records of a subtree: preceeding subtree first, then
each index entry record followed by its child subtree (this is the order the
cursor walks). -/
def Page.flatten : Page → List (Key × Val)
  | .leaf es => es
  | .node pre es => Page.flatten pre ++ flattenEnts es

/-- Records contributed by a list of index entries, each entry record followed
by the records of its child subtree. -/
def flattenEnts : List (Key × Val × Page) → List (Key × Val)
  | [] => []
  | (k, v, c) :: rest => (k, v) :: (Page.flatten c ++ flattenEnts rest)
end

/-- Structural induction over pages that hands the hypothesis for every child
subtree of an index page. -/
def Page.myInd {motive : Page → Prop}
    (hleaf : ∀ es, motive (Page.leaf es))
    (hnode : ∀ pre es, motive pre → (∀ e ∈ es, motive e.2.2) →
      motive (Page.node pre es)) :
    ∀ p, motive p
  | .leaf es => hleaf es
  | .node pre es =>
    hnode pre es (Page.myInd hleaf hnode pre)
      (fun e he => Page.myInd hleaf hnode e.2.2)
termination_by p => sizeOf p
decreasing_by
  · simp_wf; omega
  · have hlt := List.sizeOf_lt_of_mem he
    obtain ⟨k, v, c⟩ := e
    simp_wf
    simp only [Prod.mk.sizeOf_spec] at hlt
    omega

mutual
/-- Every page of the subtree carries at least one entry (a property of every
non-degenerate database; the scan and cursor laws need it). -/
def Page.pagesNonempty : Page → Bool
  | .leaf es => !es.isEmpty
  | .node pre es =>
    !es.isEmpty && Page.pagesNonempty pre && entsNonempty es

/-- All child subtrees of an entry list have nonempty pages. -/
def entsNonempty : List (Key × Val × Page) → Bool
  | [] => true
  | (_, _, c) :: rest => Page.pagesNonempty c && entsNonempty rest
end

/-- Strictly ascending chain of keys (executable). -/
def ascB : List Key → Bool
  | [] => true
  | [_] => true
  | x :: y :: rest => keyLt x y && ascB (y :: rest)

/-- A well-formed b-tree: every page nonempty and the in-order record keys
strictly ascending (so keys are unique and per-page keys are sorted). -/
def wfB (root : Page) : Bool :=
  root.pagesNonempty && ascB (root.flatten.map Prod.fst)

theorem ascB_pairwise {l : List Key} (h : ascB l = true) :
    l.Pairwise (fun x y => keyLt x y = true) := by
  induction l with
  | nil => simp
  | cons x xs ih =>
    cases xs with
    | nil => simp
    | cons y ys =>
      simp only [ascB, Bool.and_eq_true] at h
      have htail := ih h.2
      rw [List.pairwise_cons]
      refine ⟨?_, htail⟩
      intro a ha
      rcases List.mem_cons.mp ha with ha | ha
      · exact ha ▸ h.1
      · rw [List.pairwise_cons] at htail
        exact keyLt_trans h.1 (htail.1 a ha)

theorem pairwise_ascB {l : List Key} (h : l.Pairwise (fun x y => keyLt x y = true)) :
    ascB l = true := by
  induction l with
  | nil => rfl
  | cons x xs ih =>
    rw [List.pairwise_cons] at h
    cases xs with
    | nil => rfl
    | cons y ys =>
      simp only [ascB, Bool.and_eq_true]
      exact ⟨h.1 y (by simp), ih h.2⟩

/-- Classification returned by BasePage.find. -/
inductive Act where
  | recurse : Act
  | eq : Act
  | lt : Act
  | gt : Act
deriving DecidableEq, Repr

/-- BasePage.find: binary-search the page then classify the outcome
(recurse with the slot to descend into, or eq/lt/gt with the record slot). -/
def Page.find (p : Page) (k : Key) : Act × Int :=
  let i := binary_search p.ikeys k
  if i < 0 then
    if p.isindex then (Act.recurse, -1) else (Act.gt, 0)
  else if p.ikeys.getD i.toNat [] = k then (Act.eq, i)
  else if p.isindex then (Act.recurse, i)
  else (Act.lt, i)

theorem Page.sizeOf_getpage {p q : Page} {i : Int} (h : p.getpage i = some q) :
    sizeOf q < sizeOf p := by
  cases p with
  | leaf es => simp [Page.getpage] at h
  | node pre es =>
    simp only [Page.getpage] at h
    split at h
    · cases h
      simp
      omega
    · rcases Option.map_eq_some'.mp h with ⟨e, he, hq⟩
      have hmem : e ∈ es := List.get?_mem he
      have hlt := List.sizeOf_lt_of_mem hmem
      obtain ⟨k, v, c⟩ := e
      simp only at hq
      subst hq
      simp only [Prod.mk.sizeOf_spec] at hlt
      simp
      omega

/-- A cursor stack frame: a page together with the current entry slot
(-1 denotes the preceeding-pointer position of an index page). -/
abbrev Frame := Page × Int

/-- A cursor stack; the head of the list is the top of the stack (the deepest
page), mirroring "self.stack[-1]" and "self.stack.pop()". -/
abbrev Stack := List Frame

/-- Ascent loop of Cursor.next: "while self.stack and ix==len(page.index):
pop and increment", then push back iff the slot is in range. -/
def ascendNext (p : Page) (ix : Int) : Stack → Stack
  | [] => if ix < (p.count : Int) then [(p, ix)] else []
  | (q, j) :: rest =>
    if ix = (p.count : Int) then ascendNext q (j + 1) rest
    else if ix < (p.count : Int) then (p, ix) :: (q, j) :: rest
    else (q, j) :: rest

/-- Leftmost descent of Cursor.next: while the page is an index page push
(page, -1) and descend the preceeding pointer; finally the leaf at slot 0.
The returned segment is top-first. -/
def leftSpine : Page → Stack
  | .leaf es => [(Page.leaf es, 0)]
  | .node pre es => leftSpine pre ++ [(Page.node pre es, -1)]

/-- Cursor.next.  none models the IndexError of popping an empty stack and
the failure of reading a child page that does not exist. -/
def nextC : Stack → Option Stack
  | [] => none
  | (p, ix) :: rest =>
    if p.isleaf then some (ascendNext p (ix + 1) rest)
    else
      match p.getpage ix with
      | none => none
      | some c => some (leftSpine c ++ (p, ix) :: rest)

/-- Ascent loop of Cursor.prev: "while self.stack and ix<0: pop", then push
back iff the slot is in range. -/
def ascendPrev (p : Page) (ix : Int) : Stack → Stack
  | [] => if 0 ≤ ix then [(p, ix)] else []
  | (q, j) :: rest =>
    if ix < 0 then ascendPrev q j rest
    else (p, ix) :: (q, j) :: rest

/-- Rightmost descent of Cursor.prev: push (p, ix); while the current page is
an index page, read the child at the current slot and push it at its last
slot.  Returns the pushed segment top-first (deepest page first). -/
def rightDesc (p : Page) (ix : Int) : Option Stack :=
  match p with
  | .leaf es => some [(Page.leaf es, ix)]
  | .node pre es =>
    match hq : Page.getpage (Page.node pre es) ix with
    | none => none
    | some q =>
      match rightDesc q ((q.count : Int) - 1) with
      | none => none
      | some s => some (s ++ [(Page.node pre es, ix)])
termination_by sizeOf p
decreasing_by exact Page.sizeOf_getpage hq

/-- Cursor.prev. -/
def prevC : Stack → Option Stack
  | [] => none
  | (p, ix) :: rest =>
    if p.isleaf then some (ascendPrev p (ix - 1) rest)
    else
      match rightDesc p (ix - 1) with
      | none => none
      | some s => some (s ++ rest)

/-- Cursor.eof: "len(self.stack)==0". -/
def cursorEof (s : Stack) : Bool := s.isEmpty

/-- Cursor.getkey: key of the top frame ("self.stack[-1]"). -/
def cursorGetkey : Stack → Option Key
  | [] => none
  | (p, ix) :: _ => p.getkey ix

/-- Cursor.getval: value of the top frame. -/
def cursorGetval : Stack → Option Val
  | [] => none
  | (p, ix) :: _ => p.getval ix

/-- Search intent of BTree.find. -/
inductive Rel where
  | eq : Rel
  | le : Rel
  | ge : Rel
  | lt : Rel
  | gt : Rel
deriving DecidableEq, Repr

/-- Descent loop of BTree.find: classify the page, push the frame, recurse
while the classification asks to.  Returns the final classification and the
cursor stack (top-first). -/
def findAct (p : Page) (k : Key) : Option (Act × Stack) :=
  match p.find k with
  | (Act.recurse, i) =>
    match hc : p.getpage i with
    | none => none
    | some c =>
      match findAct c k with
      | none => none
      | some (a, s) => some (a, s ++ [(p, i)])
  | (a, i) => some (a, [(p, i)])
termination_by sizeOf p
decreasing_by exact Page.sizeOf_getpage hc

/-- BTree.find: run the descent, then adjust the cursor according to the
requested relation.  The outer Option models exceptions, the inner Option the
None returned on an eq miss. -/
def findT (root : Page) (rel : Rel) (k : Key) : Option (Option Stack) :=
  match findAct root k with
  | none => none
  | some (act, s) =>
    match rel, act with
    | Rel.eq, Act.eq => some (some s)
    | Rel.eq, _ => some none
    | Rel.ge, Act.eq => some (some s)
    | Rel.le, Act.eq => some (some s)
    | Rel.gt, Act.lt => (nextC s).map some
    | Rel.ge, Act.lt => (nextC s).map some
    | Rel.gt, Act.eq => (nextC s).map some
    | Rel.lt, Act.gt => (prevC s).map some
    | Rel.le, Act.gt => (prevC s).map some
    | Rel.lt, Act.eq => (prevC s).map some
    | _, _ => some (some s)

/-- Record of an index entry. -/
def entRec (e : Key × Val × Page) : Key × Val := (e.1, e.2.1)

/-- Records at and after slot i of a page, including, for an index page, the
child subtrees interleaved behind their entries. -/
def topRemaining (p : Page) (i : Int) : List (Key × Val) :=
  match p with
  | .leaf es => es.drop i.toNat
  | .node _ es => flattenEnts (es.drop i.toNat)

/-- Records strictly after the subtree hanging at slot i of a page (slot -1
denotes the preceeding pointer). -/
def frameAfter (p : Page) (i : Int) : List (Key × Val) :=
  match p with
  | .leaf es => es.drop (i + 1).toNat
  | .node _ es => flattenEnts (es.drop (i + 1).toNat)

/-- Records contributed after the current position by the outer frames of a
cursor stack. -/
def stackAfter : Stack → List (Key × Val)
  | [] => []
  | (p, i) :: rest => frameAfter p i ++ stackAfter rest

/-- Records at and after the cursor position, in order. -/
def remaining : Stack → List (Key × Val)
  | [] => []
  | (p, i) :: rest => topRemaining p i ++ stackAfter rest

/-- Records strictly before slot i of a page. -/
def topBefore (p : Page) (i : Int) : List (Key × Val) :=
  match p with
  | .leaf es => es.take i.toNat
  | .node pre es => pre.flatten ++ flattenEnts (es.take i.toNat)

/-- Records strictly before the subtree hanging at slot i of a page: for a
slot holding an entry this includes the entry record itself. -/
def frameBefore (p : Page) (i : Int) : List (Key × Val) :=
  match p with
  | .leaf es => es.take (i + 1).toNat
  | .node pre es =>
    if i < 0 then []
    else pre.flatten ++ flattenEnts (es.take i.toNat) ++
      (Option.map entRec (es.get? i.toNat)).toList

/-- Records contributed before the current position by the outer frames. -/
def passedOuter : Stack → List (Key × Val)
  | [] => []
  | (p, i) :: rest => passedOuter rest ++ frameBefore p i

/-- Records strictly before the cursor position, in order. -/
def passed : Stack → List (Key × Val)
  | [] => []
  | (p, i) :: rest => passedOuter rest ++ topBefore p i

/-- A record slot of a page: the frame a cursor may rest on. -/
def goodTop (p : Page) (i : Int) : Prop := 0 ≤ i ∧ i < (p.count : Int)

/-- A descent slot of an index page (slot -1 is the preceeding pointer). -/
def goodInner (q : Page) (j : Int) : Prop :=
  q.isindex = true ∧ -1 ≤ j ∧ j < (q.count : Int)

/-- The outer frames of a cursor stack form a descent path from the root to
the page p: each frame's page reaches the next page through its slot. -/
inductive Anchored (root : Page) : Page → Stack → Prop where
  | nil : Anchored root root []
  | cons {p q : Page} {j : Int} {rest : Stack} :
      q.getpage j = some p → goodInner q j → Anchored root q rest →
      Anchored root p ((q, j) :: rest)

/-- A cursor stack positioned at a record of the tree rooted at root. -/
inductive Valid (root : Page) : Stack → Prop where
  | mk {p : Page} {i : Int} {rest : Stack} :
      goodTop p i → Anchored root p rest → Valid root ((p, i) :: rest)

theorem flattenEnts_append (l1 l2 : List (Key × Val × Page)) :
    flattenEnts (l1 ++ l2) = flattenEnts l1 ++ flattenEnts l2 := by
  induction l1 with
  | nil => simp [flattenEnts]
  | cons e rest ih =>
    obtain ⟨k, v, c⟩ := e
    simp [flattenEnts, ih]

theorem flattenEnts_drop_eq {es : List (Key × Val × Page)} {i : Nat}
    {e : Key × Val × Page} (he : es.get? i = some e) :
    flattenEnts (es.drop i) =
      entRec e :: (e.2.2.flatten ++ flattenEnts (es.drop (i + 1))) := by
  rw [List.get?_eq_getElem?] at he
  have hlen : i < es.length := by
    by_contra hc
    rw [List.getElem?_eq_none (by omega)] at he
    cases he
  have hgd : es[i] = e := by
    rw [List.getElem?_eq_getElem hlen] at he
    cases he; rfl
  rw [List.drop_eq_getElem_cons hlen, hgd]
  obtain ⟨k, v, c⟩ := e
  simp [flattenEnts, entRec]

theorem flattenEnts_take_succ {es : List (Key × Val × Page)} {i : Nat}
    {e : Key × Val × Page} (he : es.get? i = some e) :
    flattenEnts (es.take (i + 1)) =
      flattenEnts (es.take i) ++ (entRec e :: e.2.2.flatten) := by
  rw [List.get?_eq_getElem?] at he
  rw [List.take_succ, he]
  rw [flattenEnts_append]
  obtain ⟨k, v, c⟩ := e
  simp [flattenEnts, entRec]

theorem take_append_drop_ents (es : List (Key × Val × Page)) (i : Nat) :
    flattenEnts (es.take i) ++ flattenEnts (es.drop i) = flattenEnts es := by
  rw [← flattenEnts_append, List.take_append_drop]

/-- The before and at-or-after parts of a page at any slot recombine to the
records of the page. -/
theorem top_decomp (p : Page) (i : Int) :
    topBefore p i ++ topRemaining p i = p.flatten := by
  cases p with
  | leaf es => simp [topBefore, topRemaining, Page.flatten]
  | node pre es =>
    simp only [topBefore, topRemaining, Page.flatten, List.append_assoc]
    rw [take_append_drop_ents]

/-- Descending through a slot splits the records of an index page into the
part before the subtree, the subtree, and the part after. -/
theorem frame_decomp {q p : Page} {j : Int} (hg : goodInner q j)
    (hp : q.getpage j = some p) :
    frameBefore q j ++ p.flatten ++ frameAfter q j = q.flatten := by
  obtain ⟨hidx, hj1, hj2⟩ := hg
  cases q with
  | leaf es => simp [Page.isindex] at hidx
  | node pre es =>
    simp only [Page.getpage] at hp
    by_cases hneg : j < 0
    · rw [if_pos hneg] at hp
      cases hp
      have hj : j = -1 := by omega
      subst hj
      simp [frameBefore, frameAfter, Page.flatten]
    · rw [if_neg hneg] at hp
      rcases Option.map_eq_some'.mp hp with ⟨e, he, hpe⟩
      subst hpe
      simp only [frameBefore, frameAfter, if_neg hneg, Page.flatten]
      rw [he]
      have hcount : (Page.node pre es).count = es.length := rfl
      have hiton : (j + 1).toNat = j.toNat + 1 := by omega
      rw [hiton]
      simp only [Option.map_some', Option.toList_some]
      rw [List.append_assoc, List.append_assoc, List.append_assoc]
      congr 1
      rw [← take_append_drop_ents es j.toNat]
      rw [flattenEnts_drop_eq he]
      obtain ⟨k, v, c⟩ := e
      simp [entRec]

/-- Anchoring decomposition: the records of the tree are the records passed
by the outer frames, those of the current subtree, and those still ahead. -/
theorem anchored_partition {root p : Page} {rest : Stack}
    (h : Anchored root p rest) :
    passedOuter rest ++ (p.flatten ++ stackAfter rest) = root.flatten := by
  induction h with
  | nil => simp [passedOuter, stackAfter]
  | @cons p' q j rest' hget hgood _ ih =>
    simp only [passedOuter, stackAfter]
    have hd := frame_decomp hgood hget
    calc (passedOuter rest' ++ frameBefore q j) ++
        (p'.flatten ++ (frameAfter q j ++ stackAfter rest'))
        = passedOuter rest' ++ ((frameBefore q j ++ p'.flatten ++ frameAfter q j)
            ++ stackAfter rest') := by simp [List.append_assoc]
      _ = passedOuter rest' ++ (q.flatten ++ stackAfter rest') := by rw [hd]
      _ = root.flatten := ih

/-- Partition law: passed and remaining records of a valid cursor recombine
to the record list of the tree. -/
theorem valid_partition {root : Page} {s : Stack} (h : Valid root s) :
    passed s ++ remaining s = root.flatten := by
  cases h with
  | @mk p i rest hgood hanch =>
    simp only [passed, remaining]
    have hd := top_decomp p i
    calc (passedOuter rest ++ topBefore p i) ++ (topRemaining p i ++ stackAfter rest)
        = passedOuter rest ++ ((topBefore p i ++ topRemaining p i) ++ stackAfter rest) := by
          simp [List.append_assoc]
      _ = passedOuter rest ++ (p.flatten ++ stackAfter rest) := by rw [hd]
      _ = root.flatten := anchored_partition hanch

theorem entsNonempty_mem {es : List (Key × Val × Page)} (h : entsNonempty es = true)
    {e : Key × Val × Page} (he : e ∈ es) : e.2.2.pagesNonempty = true := by
  induction es with
  | nil => cases he
  | cons e' rest ih =>
    obtain ⟨k, v, c⟩ := e'
    simp only [entsNonempty, Bool.and_eq_true] at h
    rcases List.mem_cons.mp he with he | he
    · subst he; exact h.1
    · exact ih h.2 he

theorem pagesNonempty_getpage {p q : Page} {i : Int}
    (h : p.pagesNonempty = true) (hq : p.getpage i = some q) :
    q.pagesNonempty = true := by
  cases p with
  | leaf es => simp [Page.getpage] at hq
  | node pre es =>
    simp only [Page.pagesNonempty, Bool.and_eq_true] at h
    simp only [Page.getpage] at hq
    split at hq
    · cases hq; exact h.1.2
    · rcases Option.map_eq_some'.mp hq with ⟨e, he, hpe⟩
      subst hpe
      exact entsNonempty_mem h.2 (List.get?_mem he)

theorem anchored_pagesNonempty {root p : Page} {rest : Stack}
    (hroot : root.pagesNonempty = true) (h : Anchored root p rest) :
    p.pagesNonempty = true := by
  induction h with
  | nil => exact hroot
  | @cons p' q j rest' hget _ _ ih => exact pagesNonempty_getpage ih hget

theorem flatten_ne_nil {p : Page} (h : p.pagesNonempty = true) :
    p.flatten ≠ [] := by
  induction p using Page.myInd with
  | hleaf es =>
    simp only [Page.pagesNonempty, Bool.not_eq_true'] at h
    simp only [Page.flatten]
    exact List.isEmpty_eq_false.mp h
  | hnode pre es ihpre _ =>
    simp only [Page.pagesNonempty, Bool.and_eq_true] at h
    simp only [Page.flatten]
    intro hcon
    exact ihpre h.1.2 (List.append_eq_nil.mp hcon).1

theorem topRemaining_count (p : Page) : topRemaining p (p.count : Int) = [] := by
  cases p with
  | leaf es => simp [topRemaining, Page.count]
  | node pre es => simp [topRemaining, Page.count, flattenEnts]

theorem frameAfter_eq_topRemaining (q : Page) (j : Int) :
    frameAfter q j = topRemaining q (j + 1) := by
  cases q <;> rfl

/-- Fetch the entry at a record slot of a page. -/
theorem get_of_slot {es : List (Key × Val × Page)} {i : Int} (h0 : 0 ≤ i)
    (hlt : i < (es.length : Int)) : ∃ e, es.get? i.toNat = some e := by
  have hl : i.toNat < es.length := by omega
  rw [List.get?_eq_getElem?, List.getElem?_eq_getElem hl]
  exact ⟨es[i.toNat], rfl⟩

theorem topRemaining_ne_nil {p : Page} {i : Int} (h0 : 0 ≤ i)
    (hlt : i < (p.count : Int)) : topRemaining p i ≠ [] := by
  cases p with
  | leaf es =>
    simp only [topRemaining, Page.count] at *
    intro hc
    have hlen : (es.drop i.toNat).length = 0 := by rw [hc]; rfl
    rw [List.length_drop] at hlen
    omega
  | node pre es =>
    simp only [topRemaining, Page.count] at *
    obtain ⟨e, he⟩ := get_of_slot h0 hlt
    rw [flattenEnts_drop_eq he]
    simp

theorem pyIdx_nonneg {α : Type} (l : List α) {i : Int} (h : 0 ≤ i) :
    pyIdx l i = l.get? i.toNat := by
  simp [pyIdx, h]

/-- A valid cursor rests on the head record of its remaining list, and getkey
and getval read exactly that record. -/
theorem valid_getkey_getval {root : Page} {s : Stack} (h : Valid root s) :
    ∃ r rs, remaining s = r :: rs ∧
      cursorGetkey s = some r.1 ∧ cursorGetval s = some r.2 := by
  cases h with
  | @mk p i rest hgood hanch =>
    obtain ⟨h0, hlt⟩ := hgood
    cases p with
    | leaf es =>
      simp only [Page.count] at hlt
      have hl : i.toNat < es.length := by omega
      refine ⟨es[i.toNat], es.drop (i.toNat + 1) ++ stackAfter rest, ?_, ?_, ?_⟩
      · simp only [remaining, topRemaining]
        rw [List.drop_eq_getElem_cons hl, List.cons_append]
      · simp only [cursorGetkey, Page.getkey, Page.ikeys, pyIdx_nonneg _ h0]
        rw [List.get?_eq_getElem?, List.getElem?_map, List.getElem?_eq_getElem hl]
        rfl
      · simp only [cursorGetval, Page.getval, Page.ivals, pyIdx_nonneg _ h0]
        rw [List.get?_eq_getElem?, List.getElem?_map, List.getElem?_eq_getElem hl]
        rfl
    | node pre es =>
      simp only [Page.count] at hlt
      obtain ⟨e, he⟩ := get_of_slot h0 hlt
      refine ⟨entRec e, (e.2.2.flatten ++ flattenEnts (es.drop (i.toNat + 1)))
        ++ stackAfter rest, ?_, ?_, ?_⟩
      · simp only [remaining, topRemaining]
        rw [flattenEnts_drop_eq he]
        simp
      · simp only [cursorGetkey, Page.getkey, Page.ikeys, pyIdx_nonneg _ h0]
        rw [List.get?_eq_getElem?, List.getElem?_map]
        rw [List.get?_eq_getElem?] at he
        rw [he]
        rfl
      · simp only [cursorGetval, Page.getval, Page.ivals, pyIdx_nonneg _ h0]
        rw [List.get?_eq_getElem?, List.getElem?_map]
        rw [List.get?_eq_getElem?] at he
        rw [he]
        rfl

/-- The ascent loop of next lands on the next record: popping exhausted
frames preserves the list of records still ahead, and the loop empties the
stack exactly when no record is ahead. -/
theorem ascendNext_spec {root : Page} :
    ∀ (rest : Stack) (p : Page) (ix : Int), Anchored root p rest →
      0 ≤ ix → ix ≤ (p.count : Int) →
      (topRemaining p ix ++ stackAfter rest = [] → ascendNext p ix rest = []) ∧
      (topRemaining p ix ++ stackAfter rest ≠ [] →
        Valid root (ascendNext p ix rest) ∧
        remaining (ascendNext p ix rest) = topRemaining p ix ++ stackAfter rest) := by
  intro rest
  induction rest with
  | nil =>
    intro p ix hanch h0 hle
    by_cases hix : ix < (p.count : Int)
    · constructor
      · intro hR
        exact absurd (List.append_eq_nil.mp hR).1 (topRemaining_ne_nil h0 hix)
      · intro _
        have hne : ¬ ix = (p.count : Int) := by omega
        refine ⟨?_, ?_⟩
        · simp only [ascendNext, hix, if_true]
          exact Valid.mk ⟨h0, hix⟩ hanch
        · simp [ascendNext, hix, remaining]
    · have heq : ix = (p.count : Int) := by omega
      subst heq
      constructor
      · intro _
        simp [ascendNext]
      · intro hR
        exact absurd (by simp [topRemaining_count, stackAfter]) hR
  | cons f rest ih =>
    obtain ⟨q, j⟩ := f
    intro p ix hanch h0 hle
    cases hanch with
    | cons hget hgood hanch2 =>
      by_cases hix : ix = (p.count : Int)
      · have hR : topRemaining p ix ++ stackAfter ((q, j) :: rest) =
            topRemaining q (j + 1) ++ stackAfter rest := by
          rw [hix, topRemaining_count]
          simp only [stackAfter, List.nil_append]
          rw [frameAfter_eq_topRemaining]
        obtain ⟨hg1, hg2, hg3⟩ := hgood
        have hstep : ascendNext p ix ((q, j) :: rest) = ascendNext q (j + 1) rest := by
          simp [ascendNext, hix]
        rw [hstep, hR]
        exact ih q (j + 1) hanch2 (by omega) (by omega)
      · have hlt : ix < (p.count : Int) := by omega
        constructor
        · intro hR
          exact absurd (List.append_eq_nil.mp hR).1 (topRemaining_ne_nil h0 hlt)
        · intro _
          refine ⟨?_, ?_⟩
          · simp only [ascendNext, hix, if_false, hlt, if_true]
            exact Valid.mk ⟨h0, hlt⟩ (Anchored.cons hget hgood hanch2)
          · simp [ascendNext, hix, hlt, remaining, stackAfter]

/-- The leftmost-descent segment pushed by next lands on the first record of
the child subtree: the whole subtree is still ahead. -/
theorem leftSpine_spec {root : Page} (hroot : root.pagesNonempty = true) :
    ∀ (c : Page), c.pagesNonempty = true →
      ∀ (rest : Stack), Anchored root c rest →
        Valid root (leftSpine c ++ rest) ∧
        remaining (leftSpine c ++ rest) = c.flatten ++ stackAfter rest := by
  intro c
  induction c using Page.myInd with
  | hleaf es =>
    intro hne rest hanch
    simp only [Page.pagesNonempty, Bool.not_eq_true'] at hne
    have hlen : 0 < es.length := by
      cases es with
      | nil => simp at hne
      | cons e es' => simp
    constructor
    · simp only [leftSpine, List.cons_append]
      exact Valid.mk ⟨by omega, by simp [Page.count]; omega⟩ hanch
    · simp [leftSpine, remaining, topRemaining, Page.flatten]
  | hnode pre es ihpre _ =>
    intro hne rest hanch
    simp only [Page.pagesNonempty, Bool.and_eq_true] at hne
    have hanch2 : Anchored root pre ((Page.node pre es, -1) :: rest) := by
      refine Anchored.cons ?_ ?_ hanch
      · simp [Page.getpage]
      · exact ⟨rfl, by omega, by simp [Page.count]; omega⟩
    have := ihpre hne.1.2 ((Page.node pre es, -1) :: rest) hanch2
    simp only [leftSpine, List.append_assoc, List.singleton_append]
    refine ⟨this.1, ?_⟩
    rw [this.2]
    simp only [stackAfter, frameAfter, Page.flatten]
    simp [flattenEnts]

/-- Step law for Cursor.next on a valid cursor: it succeeds, and either the
cursor was at the last record and becomes eof, or the cursor moves to the
next record (the remaining list loses its head). -/
theorem next_step {root : Page} {s : Stack} (hroot : root.pagesNonempty = true)
    (hv : Valid root s) :
    ∃ s2, nextC s = some s2 ∧
      ((remaining s).tail = [] ∧ s2 = [] ∨
        Valid root s2 ∧ remaining s2 = (remaining s).tail) := by
  cases hv with
  | @mk p i rest hgood hanch =>
    obtain ⟨h0, hlt⟩ := hgood
    cases p with
    | leaf es =>
      simp only [Page.count] at hlt
      have hl : i.toNat < es.length := by omega
      have hspec := ascendNext_spec rest (Page.leaf es) (i + 1) hanch (by omega)
        (by simp [Page.count]; omega)
      refine ⟨ascendNext (Page.leaf es) (i + 1) rest, ?_, ?_⟩
      · simp [nextC, Page.isleaf]
      · have htail : (remaining ((Page.leaf es, i) :: rest)).tail =
            topRemaining (Page.leaf es) (i + 1) ++ stackAfter rest := by
          simp only [remaining, topRemaining]
          rw [List.drop_eq_getElem_cons hl, List.cons_append]
          simp only [List.tail_cons]
          have : (i + 1).toNat = i.toNat + 1 := by omega
          rw [this]
        by_cases hR : topRemaining (Page.leaf es) (i + 1) ++ stackAfter rest = []
        · exact Or.inl ⟨by rw [htail, hR], hspec.1 hR⟩
        · exact Or.inr ⟨(hspec.2 hR).1, by rw [htail]; exact (hspec.2 hR).2⟩
    | node pre es =>
      simp only [Page.count] at hlt
      obtain ⟨e, he⟩ := get_of_slot h0 hlt
      have hc : (Page.node pre es).getpage i = some e.2.2 := by
        simp only [Page.getpage]
        rw [if_neg (by omega), he]
        rfl
      have hanch2 : Anchored root e.2.2 ((Page.node pre es, i) :: rest) :=
        Anchored.cons hc ⟨rfl, by omega, by simp [Page.count]; omega⟩ hanch
      have hcne : e.2.2.pagesNonempty = true :=
        pagesNonempty_getpage (anchored_pagesNonempty hroot hanch) hc
      have hspine := leftSpine_spec hroot e.2.2 hcne _ hanch2
      refine ⟨leftSpine e.2.2 ++ (Page.node pre es, i) :: rest, ?_, Or.inr ⟨hspine.1, ?_⟩⟩
      · simp only [nextC, Page.isleaf, Bool.false_eq_true, if_false]
        rw [hc]
      · rw [hspine.2]
        simp only [remaining, topRemaining, stackAfter]
        rw [flattenEnts_drop_eq he]
        simp only [List.cons_append, List.tail_cons, frameAfter]
        have : (i + 1).toNat = i.toNat + 1 := by omega
        rw [this]
        simp [List.append_assoc]

theorem ascendPrev_stop (p : Page) {ix : Int} (h : 0 ≤ ix) (rest : Stack) :
    ascendPrev p ix rest = (p, ix) :: rest := by
  cases rest with
  | nil => simp only [ascendPrev]; rw [if_pos h]
  | cons f r =>
    obtain ⟨q, j⟩ := f
    simp only [ascendPrev]
    rw [if_neg (by omega)]

theorem frameBefore_node_eq {pre : Page} {es : List (Key × Val × Page)} {j : Int}
    (h0 : 0 ≤ j) {e : Key × Val × Page} (he : es.get? j.toNat = some e) :
    frameBefore (Page.node pre es) j = topBefore (Page.node pre es) j ++ [entRec e] := by
  simp only [frameBefore, topBefore, if_neg (not_lt.mpr h0)]
  rw [he]
  simp [List.append_assoc]

/-- The ascent loop of prev pops descent-only frames; it empties the stack
exactly when no record was passed, and otherwise stops on the frame holding
the last passed record. -/
theorem ascendPrev_pop {root : Page} :
    ∀ (rest : Stack) (p : Page) (ix : Int), Anchored root p rest → ix < 0 →
      (passedOuter rest = [] → ascendPrev p ix rest = []) ∧
      (passedOuter rest ≠ [] →
        ∃ r, Valid root (ascendPrev p ix rest) ∧
          passedOuter rest = passed (ascendPrev p ix rest) ++ [r]) := by
  intro rest
  induction rest with
  | nil =>
    intro p ix _ hneg
    constructor
    · intro _
      simp only [ascendPrev]
      rw [if_neg (by omega)]
    · intro hne
      exact absurd rfl hne
  | cons f rest2 ih =>
    obtain ⟨q, j⟩ := f
    intro p ix hanch hneg
    cases hanch with
    | cons hget hgood hanch2 =>
      have hstep : ascendPrev p ix ((q, j) :: rest2) = ascendPrev q j rest2 := by
        simp only [ascendPrev]
        rw [if_pos hneg]
      obtain ⟨hidx, hj1, hj2⟩ := hgood
      by_cases hj : j < 0
      · have hfb : frameBefore q j = [] := by
          cases q with
          | leaf es => simp [Page.isindex] at hidx
          | node pre es => simp [frameBefore, hj]
        have hPO : passedOuter ((q, j) :: rest2) = passedOuter rest2 := by
          simp [passedOuter, hfb]
        rw [hstep, hPO]
        exact ih q j hanch2 hj
      · push_neg at hj
        have hstop : ascendPrev q j rest2 = (q, j) :: rest2 := ascendPrev_stop q hj rest2
        cases q with
        | leaf es => simp [Page.isindex] at hidx
        | node pre es =>
          obtain ⟨e, he⟩ := get_of_slot hj (by simpa [Page.count] using hj2)
          have hfb := @frameBefore_node_eq pre es j hj e he
          constructor
          · intro hPO
            simp only [passedOuter] at hPO
            rw [hfb] at hPO
            rcases List.append_eq_nil.mp hPO with ⟨_, h2⟩
            rcases List.append_eq_nil.mp h2 with ⟨_, h3⟩
            cases h3
          · intro _
            refine ⟨entRec e, ?_, ?_⟩
            · rw [hstep, hstop]
              exact Valid.mk ⟨hj, hj2⟩ hanch2
            · rw [hstep, hstop]
              simp only [passedOuter, passed]
              rw [hfb]
              simp [List.append_assoc]

/-- The rightmost-descent of prev from a subtree lands on the last record of
that subtree. -/
theorem rightDesc_last {root : Page} :
    ∀ (p : Page), p.pagesNonempty = true →
      ∀ (rest : Stack), Anchored root p rest →
        ∃ seg r, rightDesc p ((p.count : Int) - 1) = some seg ∧
          p.flatten.getLast? = some r ∧
          Valid root (seg ++ rest) ∧
          remaining (seg ++ rest) = r :: stackAfter rest := by
  intro p
  induction p using Page.myInd with
  | hleaf es =>
    intro hne rest hanch
    simp only [Page.pagesNonempty, Bool.not_eq_true'] at hne
    have hnil : es ≠ [] := List.isEmpty_eq_false.mp hne
    have hlen : 0 < es.length := List.length_pos.mpr hnil
    have hton : (((Page.leaf es).count : Int) - 1).toNat = es.length - 1 := by
      simp only [Page.count]
      omega
    refine ⟨[(Page.leaf es, ((Page.leaf es).count : Int) - 1)], es.getLast hnil,
      by simp [rightDesc], ?_, ?_, ?_⟩
    · exact List.getLast?_eq_getLast es hnil
    · refine Valid.mk ⟨?_, ?_⟩ hanch
      · simp only [Page.count]
        omega
      · simp only [Page.count]
        omega
    · simp only [List.cons_append, List.nil_append, remaining, topRemaining, hton]
      have hidx : es.length - 1 < es.length := by omega
      rw [List.drop_eq_getElem_cons hidx]
      have hd : es.length - 1 + 1 = es.length := by omega
      rw [hd, List.drop_length]
      rw [List.getLast_eq_getElem es hnil]
      rfl
  | hnode pre es ihpre ihes =>
    intro hne rest hanch
    simp only [Page.pagesNonempty, Bool.and_eq_true] at hne
    obtain ⟨⟨hesne, hprene⟩, hents⟩ := hne
    have hnil : es ≠ [] := by
      simpa [List.isEmpty_eq_false] using hesne
    have hlen : 0 < es.length := List.length_pos.mpr hnil
    have hcnt : ((Page.node pre es).count : Int) = (es.length : Int) := by
      simp [Page.count]
    have hton : (((Page.node pre es).count : Int) - 1).toNat = es.length - 1 := by
      rw [hcnt]; omega
    obtain ⟨e, he⟩ := @get_of_slot es (((Page.node pre es).count : Int) - 1)
      (by rw [hcnt]; omega) (by rw [hcnt]; omega)
    rw [hton] at he
    have hget : (Page.node pre es).getpage (((Page.node pre es).count : Int) - 1) =
        some e.2.2 := by
      simp only [Page.getpage]
      rw [if_neg (by rw [hcnt]; omega), hton, he]
      rfl
    have hanch2 : Anchored root e.2.2
        ((Page.node pre es, ((Page.node pre es).count : Int) - 1) :: rest) :=
      Anchored.cons hget ⟨rfl, by rw [hcnt]; omega, by rw [hcnt]; omega⟩ hanch
    have hchildne : e.2.2.pagesNonempty = true :=
      entsNonempty_mem hents (List.get?_mem he)
    obtain ⟨seg, r, hseg, hlast, hval, hrem⟩ := ihes e (List.get?_mem he) hchildne
      ((Page.node pre es, ((Page.node pre es).count : Int) - 1) :: rest) hanch2
    have hflatc : e.2.2.flatten ≠ [] := flatten_ne_nil hchildne
    refine ⟨seg ++ [(Page.node pre es, ((Page.node pre es).count : Int) - 1)], r,
      ?_, ?_, ?_, ?_⟩
    · rw [rightDesc]
      split
      · rename_i heq
        rw [hget] at heq
        cases heq
      · rename_i q heq
        rw [hget] at heq
        cases heq
        rw [hseg]
    · have hdecomp : (Page.node pre es).flatten =
          (pre.flatten ++ flattenEnts (es.take (es.length - 1)) ++ [entRec e])
            ++ e.2.2.flatten := by
        simp only [Page.flatten]
        rw [← take_append_drop_ents es (es.length - 1)]
        rw [flattenEnts_drop_eq he]
        have hd : es.length - 1 + 1 = es.length := by omega
        rw [hd, List.drop_length]
        simp [flattenEnts, List.append_assoc]
      rw [hdecomp, List.getLast?_append, hlast]
      rfl
    · rw [List.append_assoc, List.singleton_append]
      exact hval
    · rw [List.append_assoc, List.singleton_append, hrem]
      simp only [stackAfter, frameAfter]
      have hd : (((Page.node pre es).count : Int) - 1 + 1).toNat = es.length := by
        rw [hcnt]; omega
      rw [hd, List.drop_length]
      simp [flattenEnts]

theorem passed_of_remaining {root : Page} {s s2 : Stack} {r : Key × Val}
    (hv : Valid root s) (hv2 : Valid root s2)
    (hrem : remaining s2 = r :: remaining s) :
    passed s = passed s2 ++ [r] := by
  have h1 := valid_partition hv
  have h2 := valid_partition hv2
  rw [hrem] at h2
  have hmid : (passed s2 ++ [r]) ++ remaining s = passed s ++ remaining s := by
    rw [List.append_assoc]
    simpa using h2.trans h1.symm
  exact (List.append_cancel_right hmid).symm

theorem remaining_of_passed {root : Page} {s s2 : Stack} {r : Key × Val}
    (hv : Valid root s) (hv2 : Valid root s2)
    (hp : passed s = passed s2 ++ [r]) :
    remaining s2 = r :: remaining s := by
  have h1 := valid_partition hv
  have h2 := valid_partition hv2
  rw [hp, List.append_assoc] at h1
  have := List.append_cancel_left (h2.trans h1.symm)
  simpa using this

/-- Step law for Cursor.prev on a valid cursor: it succeeds, and either the
cursor was at the first record and becomes eof, or the cursor moves to the
previous record (the passed list loses its last element, which becomes the
head of the remaining list). -/
theorem prev_step {root : Page} {s : Stack} (hroot : root.pagesNonempty = true)
    (hv : Valid root s) :
    ∃ s2, prevC s = some s2 ∧
      (passed s = [] ∧ s2 = [] ∨
        ∃ r, Valid root s2 ∧ passed s = passed s2 ++ [r] ∧
          remaining s2 = r :: remaining s) := by
  cases hv with
  | @mk p i rest hgood hanch =>
    obtain ⟨h0, hlt⟩ := hgood
    have hvs : Valid root ((p, i) :: rest) := Valid.mk ⟨h0, hlt⟩ hanch
    cases p with
    | leaf es =>
      simp only [Page.count] at hlt
      refine ⟨ascendPrev (Page.leaf es) (i - 1) rest, by simp [prevC, Page.isleaf], ?_⟩
      by_cases hi : 1 ≤ i
      · have hstop : ascendPrev (Page.leaf es) (i - 1) rest =
            (Page.leaf es, i - 1) :: rest := ascendPrev_stop _ (by omega) rest
        rw [hstop]
        have hl1 : (i - 1).toNat < es.length := by omega
        have hval2 : Valid root ((Page.leaf es, i - 1) :: rest) :=
          Valid.mk ⟨by omega, by simp [Page.count]; omega⟩ hanch
        have hrem : remaining ((Page.leaf es, i - 1) :: rest) =
            es[(i - 1).toNat] :: remaining ((Page.leaf es, i) :: rest) := by
          simp only [remaining, topRemaining]
          rw [List.drop_eq_getElem_cons hl1, List.cons_append]
          have hd : (i - 1).toNat + 1 = i.toNat := by omega
          rw [hd]
        exact Or.inr ⟨es[(i - 1).toNat], hval2,
          passed_of_remaining hvs hval2 hrem, hrem⟩
      · have hi0 : i = 0 := by omega
        subst hi0
        have hpop := ascendPrev_pop rest (Page.leaf es) (0 - 1) hanch (by omega)
        have hps : passed ((Page.leaf es, (0 : Int)) :: rest) = passedOuter rest := by
          simp [passed, topBefore]
        by_cases hPO : passedOuter rest = []
        · exact Or.inl ⟨by rw [hps, hPO], hpop.1 hPO⟩
        · obtain ⟨r, hval2, heq⟩ := hpop.2 hPO
          have hpeq : passed ((Page.leaf es, (0 : Int)) :: rest) =
              passed (ascendPrev (Page.leaf es) (0 - 1) rest) ++ [r] := by
            rw [hps, heq]
          exact Or.inr ⟨r, hval2, hpeq, remaining_of_passed hvs hval2 hpeq⟩
    | node pre es =>
      simp only [Page.count] at hlt
      have hc : ∃ c, (Page.node pre es).getpage (i - 1) = some c := by
        by_cases hi : i - 1 < 0
        · exact ⟨pre, by simp [Page.getpage, hi]⟩
        · obtain ⟨e, he⟩ := @get_of_slot es (i - 1) (by omega) (by omega)
          refine ⟨e.2.2, ?_⟩
          simp only [Page.getpage]
          rw [if_neg hi, he]
          rfl
      obtain ⟨c, hget⟩ := hc
      have hcne : c.pagesNonempty = true :=
        pagesNonempty_getpage (anchored_pagesNonempty hroot hanch) hget
      have hanch2 : Anchored root c ((Page.node pre es, i - 1) :: rest) :=
        Anchored.cons hget ⟨rfl, by omega, by simp [Page.count]; omega⟩ hanch
      obtain ⟨seg, r, hseg, _hlast, hval2, hrem2⟩ :=
        rightDesc_last c hcne ((Page.node pre es, i - 1) :: rest) hanch2
      have hrdc : rightDesc (Page.node pre es) (i - 1) =
          some (seg ++ [(Page.node pre es, i - 1)]) := by
        rw [rightDesc]
        split
        · rename_i heq
          rw [hget] at heq
          cases heq
        · rename_i q heq
          rw [hget] at heq
          cases heq
          rw [hseg]
      refine ⟨(seg ++ [(Page.node pre es, i - 1)]) ++ rest, ?_, ?_⟩
      · simp only [prevC, Page.isleaf, Bool.false_eq_true, if_false]
        rw [hrdc]
      · have hassoc : (seg ++ [(Page.node pre es, i - 1)]) ++ rest =
            seg ++ ((Page.node pre es, i - 1) :: rest) := by
          rw [List.append_assoc, List.singleton_append]
        rw [hassoc]
        have hrem : remaining (seg ++ ((Page.node pre es, i - 1) :: rest)) =
            r :: remaining ((Page.node pre es, i) :: rest) := by
          rw [hrem2]
          simp only [stackAfter, frameAfter, remaining, topRemaining]
          have hd : (i - 1 + 1).toNat = i.toNat := by omega
          rw [hd]
        exact Or.inr ⟨r, hval2, passed_of_remaining hvs hval2 hrem, hrem⟩

/-- Record lists in strictly ascending key order. -/
def sortedRecs (M : List (Key × Val)) : Prop :=
  M.Pairwise (fun x y => keyLt x.1 y.1 = true)

/-- Records with key strictly below k. -/
def lowsR (M : List (Key × Val)) (k : Key) : List (Key × Val) :=
  M.filter (fun e => keyLt e.1 k)

/-- Records with key strictly above k. -/
def highsR (M : List (Key × Val)) (k : Key) : List (Key × Val) :=
  M.filter (fun e => keyLt k e.1)

theorem sortedRecs_infix {M A B C : List (Key × Val)} (hs : sortedRecs M)
    (h : M = A ++ B ++ C) : sortedRecs B := by
  subst h
  unfold sortedRecs at *
  rw [List.append_assoc] at hs
  exact hs.sublist ((List.sublist_append_left B C).trans (List.sublist_append_right A _))

theorem split_filters {A B : List (Key × Val)} {k : Key}
    (hA : ∀ e ∈ A, keyLt e.1 k = true) (hB : ∀ e ∈ B, keyLt k e.1 = true) :
    highsR (A ++ B) k = B ∧ lowsR (A ++ B) k = A ∧ ∀ e ∈ A ++ B, e.1 ≠ k := by
  refine ⟨?_, ?_, ?_⟩
  · unfold highsR
    rw [List.filter_append]
    rw [List.filter_eq_nil.mpr (fun e he => by rw [keyLt_asymm (hA e he)]; simp)]
    rw [List.filter_eq_self.mpr hB]
    simp
  · unfold lowsR
    rw [List.filter_append]
    rw [List.filter_eq_self.mpr hA]
    rw [List.filter_eq_nil.mpr (fun e he => by rw [keyLt_asymm (hB e he)]; simp)]
    simp
  · intro e he
    rcases List.mem_append.mp he with he | he
    · intro hc
      have := hA e he
      rw [hc, keyLt_irrefl] at this
      cases this
    · intro hc
      have := hB e he
      rw [hc, keyLt_irrefl] at this
      cases this

theorem sorted_split_at {M A B : List (Key × Val)} {r : Key × Val}
    (hs : sortedRecs M) (hM : M = A ++ r :: B) :
    highsR M r.1 = B ∧ lowsR M r.1 = A ∧
      (∀ e ∈ A, keyLt e.1 r.1 = true) ∧ (∀ e ∈ B, keyLt r.1 e.1 = true) := by
  subst hM
  unfold sortedRecs at hs
  rw [List.pairwise_append] at hs
  obtain ⟨hsA, hsrB, hcross⟩ := hs
  rw [List.pairwise_cons] at hsrB
  have hA : ∀ e ∈ A, keyLt e.1 r.1 = true := fun e he => hcross e he r (by simp)
  have hB : ∀ e ∈ B, keyLt r.1 e.1 = true := fun e he => hsrB.1 e he
  refine ⟨?_, ?_, hA, hB⟩
  · unfold highsR
    rw [List.filter_append]
    rw [List.filter_eq_nil.mpr (fun e he => by rw [keyLt_asymm (hA e he)]; simp)]
    simp only [List.filter_cons, keyLt_irrefl, List.nil_append]
    rw [if_neg (by simp)]
    rw [List.filter_eq_self.mpr hB]
  · unfold lowsR
    rw [List.filter_append]
    rw [List.filter_eq_self.mpr hA]
    simp only [List.filter_cons, keyLt_irrefl]
    rw [if_neg (by simp)]
    rw [List.filter_eq_nil.mpr (fun e he => by rw [keyLt_asymm (hB e he)]; simp)]
    simp

theorem map_entRec_sublist (es : List (Key × Val × Page)) :
    List.Sublist (es.map entRec) (flattenEnts es) := by
  induction es with
  | nil => simp [flattenEnts]
  | cons e rest ih =>
    obtain ⟨k, v, c⟩ := e
    simp only [List.map_cons, flattenEnts]
    exact (ih.trans (List.sublist_append_right _ _)).cons₂ _

theorem ikeys_eq_map_flatten (es : List (Key × Val)) :
    (Page.leaf es).ikeys = es.map Prod.fst := rfl

theorem ikeys_pairwise {p : Page} (hs : sortedRecs p.flatten) :
    p.ikeys.Pairwise (fun x y => keyLt x y = true) := by
  cases p with
  | leaf es =>
    simp only [Page.ikeys]
    rw [List.pairwise_map]
    exact hs
  | node pre es =>
    have hfe : sortedRecs (flattenEnts es) := by
      refine sortedRecs_infix hs (A := pre.flatten) (C := []) ?_
      simp [Page.flatten]
    have hsub : sortedRecs (es.map entRec) := hfe.sublist (map_entRec_sublist es)
    have hmm : (es.map entRec).map Prod.fst = es.map Prod.fst := by
      rw [List.map_map]
      rfl
    simp only [Page.ikeys]
    rw [← hmm, List.pairwise_map]
    exact hsub

theorem ikeys_length (p : Page) : p.ikeys.length = p.count := by
  cases p <;> simp [Page.ikeys, Page.count]

/-- Evaluation of BasePage.find in terms of the floor count of the page
keys. -/
theorem page_find_spec (p : Page) (k : Key)
    (hsort : p.ikeys.Pairwise (fun x y => keyLt x y = true)) :
    p.find k =
      if floorCnt p.ikeys k = 0 then
        (if p.isindex = true then (Act.recurse, -1) else (Act.gt, 0))
      else if p.ikeys.getD (floorCnt p.ikeys k - 1) [] = k then
        (Act.eq, (floorCnt p.ikeys k : Int) - 1)
      else if p.isindex = true then (Act.recurse, (floorCnt p.ikeys k : Int) - 1)
      else (Act.lt, (floorCnt p.ikeys k : Int) - 1) := by
  unfold Page.find
  rw [binary_search_spec _ _ hsort]
  by_cases hcnt : floorCnt p.ikeys k = 0
  · rw [if_pos hcnt, hcnt]
    rw [if_pos (by omega)]
  · rw [if_neg hcnt]
    rw [if_neg (by omega)]
    have hton : ((floorCnt p.ikeys k : Int) - 1).toNat = floorCnt p.ikeys k - 1 := by
      omega
    rw [hton]

theorem allGt_of_sorted_head {M T : List (Key × Val)} {r : Key × Val} {k : Key}
    (hs : sortedRecs M) (hM : M = r :: T) (hr : keyLt k r.1 = true) :
    ∀ e ∈ M, keyLt k e.1 = true := by
  subst hM
  unfold sortedRecs at hs
  rw [List.pairwise_cons] at hs
  intro e he
  rcases List.mem_cons.mp he with he | he
  · subst he; exact hr
  · exact keyLt_trans hr (hs.1 e he)

theorem key_ne_of_gt {k x : Key} (h : keyLt k x = true) : x ≠ k := by
  intro hc
  subst hc
  rw [keyLt_irrefl] at h
  cases h

theorem key_ne_of_lt {k x : Key} (h : keyLt x k = true) : x ≠ k := by
  intro hc
  subst hc
  rw [keyLt_irrefl] at h
  cases h

theorem stackAfter_append (s t : Stack) :
    stackAfter (s ++ t) = stackAfter s ++ stackAfter t := by
  induction s with
  | nil => simp [stackAfter]
  | cons f s' ih =>
    obtain ⟨p, i⟩ := f
    simp [stackAfter, ih]

theorem remaining_append_of_ne {s : Stack} (h : s ≠ []) (t : Stack) :
    remaining (s ++ t) = remaining s ++ stackAfter t := by
  cases s with
  | nil => exact absurd rfl h
  | cons f s' =>
    obtain ⟨p, i⟩ := f
    simp [remaining, stackAfter_append]

theorem ikeys_getD_leaf {es : List (Key × Val)} {j : Nat} (h : j < es.length) :
    (Page.leaf es).ikeys.getD j [] = es[j].1 := by
  simp only [Page.ikeys]
  rw [List.getD_eq_getElem _ _ (by simpa using h)]
  simp

theorem ikeys_getD_node {pre : Page} {es : List (Key × Val × Page)} {j : Nat}
    (h : j < es.length) : (Page.node pre es).ikeys.getD j [] = es[j].1 := by
  simp only [Page.ikeys]
  rw [List.getD_eq_getElem _ _ (by simpa using h)]
  simp

theorem findAct_of_terminal {p : Page} {k : Key} {a : Act} {i : Int}
    (hf : p.find k = (a, i)) (ha : a ≠ Act.recurse) :
    findAct p k = some (a, [(p, i)]) := by
  rw [findAct, hf]
  cases a with
  | recurse => exact absurd rfl ha
  | eq => rfl
  | lt => rfl
  | gt => rfl

theorem findAct_of_recurse {p : Page} {k : Key} {i : Int} {c : Page}
    (hf : p.find k = (Act.recurse, i)) (hc : p.getpage i = some c)
    {a : Act} {s : Stack} (hrec : findAct c k = some (a, s)) :
    findAct p k = some (a, s ++ [(p, i)]) := by
  rw [findAct, hf]
  split
  · rename_i i2 heq
    injection heq with ha hi
    subst hi
    split
    · rename_i heq2
      rw [hc] at heq2
      cases heq2
    · rename_i q heq2
      rw [hc] at heq2
      cases heq2
      rw [hrec]
  · rename_i a2 i2 hfun heq2
    cases heq2
    exact (hfun rfl).elim

/-- Outcome characterization shared by the descent lemma: what each
classification says about the searched key relative to the records M of the
subtree and the records still ahead of the returned cursor. -/
def findOutcome (a : Act) (k : Key) (M R : List (Key × Val)) : Prop :=
  match a with
  | Act.recurse => False
  | Act.eq => ∃ v, (k, v) ∈ M ∧ R = (k, v) :: highsR M k
  | Act.lt => (∀ e ∈ M, e.1 ≠ k) ∧
      ∃ r, (lowsR M k).getLast? = some r ∧ R = r :: highsR M k
  | Act.gt => (∀ e ∈ M, e.1 ≠ k) ∧ R = highsR M k

/-- Descent lemma, leaf case. -/
theorem findAct_spec_leaf (es : List (Key × Val)) (hne : es ≠ [])
    (hs : sortedRecs (Page.leaf es).flatten) (k : Key) :
    ∃ a s, findAct (Page.leaf es) k = some (a, s) ∧ s ≠ [] ∧
      (∀ root rest, Anchored root (Page.leaf es) rest → Valid root (s ++ rest)) ∧
      findOutcome a k (Page.leaf es).flatten (remaining s) := by
  have hlen : 0 < es.length := List.length_pos.mpr hne
  have hsrecs : sortedRecs es := hs
  have hsortk := ikeys_pairwise (p := Page.leaf es) hs
  have hfind := page_find_spec (Page.leaf es) k hsortk
  have hklen : (Page.leaf es).ikeys.length = es.length := by
    rw [ikeys_length]; rfl
  have hcle : floorCnt (Page.leaf es).ikeys k ≤ es.length := by
    have := floorCnt_le_length (Page.leaf es).ikeys k
    omega
  by_cases hcnt : floorCnt (Page.leaf es).ikeys k = 0
  · rw [if_pos hcnt] at hfind
    simp only [Page.isindex, Bool.false_eq_true, if_false] at hfind
    have hfa := findAct_of_terminal hfind (by simp)
    refine ⟨Act.gt, [(Page.leaf es, 0)], hfa, by simp, ?_, ?_⟩
    · intro root rest hanch
      refine Valid.mk ⟨by omega, ?_⟩ hanch
      simp only [Page.count]
      omega
    · have hgt : ∀ e ∈ es, keyLt k e.1 = true := by
        cases es with
        | nil => exact absurd rfl hne
        | cons e0 tl =>
          refine allGt_of_sorted_head (r := e0) (T := tl) hsrecs rfl ?_
          have h0 : keyLt k ((Page.leaf (e0 :: tl)).ikeys.getD 0 []) = true :=
            floorCnt_ge_prop _ k hsortk (by omega) (by rw [hklen]; simp)
          rwa [ikeys_getD_leaf (by simp)] at h0
      refine ⟨fun e he => key_ne_of_gt (hgt e he), ?_⟩
      show remaining [(Page.leaf es, 0)] = highsR es k
      have hhigh : highsR es k = es := List.filter_eq_self.mpr hgt
      rw [hhigh]
      simp [remaining, topRemaining, stackAfter]
  · have hn1 : 1 ≤ floorCnt (Page.leaf es).ikeys k := by omega
    set n := floorCnt (Page.leaf es).ikeys k with hn
    have hlt1 : n - 1 < es.length := by omega
    have hdec : es = es.take (n - 1) ++ es[n - 1] :: es.drop n := by
      conv_lhs => rw [← List.take_append_drop (n - 1) es]
      rw [List.drop_eq_getElem_cons hlt1]
      have hd : n - 1 + 1 = n := by omega
      rw [hd]
    have hrem : remaining [(Page.leaf es, (n : Int) - 1)] =
        es[n - 1] :: es.drop n := by
      simp only [remaining, topRemaining, stackAfter, List.append_nil]
      have hd : ((n : Int) - 1).toNat = n - 1 := by omega
      rw [hd, List.drop_eq_getElem_cons hlt1]
      have hd2 : n - 1 + 1 = n := by omega
      rw [hd2]
    have hvalid : ∀ root rest, Anchored root (Page.leaf es) rest →
        Valid root ([(Page.leaf es, (n : Int) - 1)] ++ rest) := by
      intro root rest hanch
      refine Valid.mk ⟨by omega, ?_⟩ hanch
      simp only [Page.count]
      omega
    by_cases hkeq : (Page.leaf es).ikeys.getD (n - 1) [] = k
    · rw [if_neg hcnt, if_pos hkeq] at hfind
      have hfa := findAct_of_terminal hfind (by simp)
      have hk1 : es[n - 1].1 = k := by
        rwa [ikeys_getD_leaf hlt1] at hkeq
      have hsplit := sorted_split_at (M := es) hsrecs hdec
      refine ⟨Act.eq, [(Page.leaf es, (n : Int) - 1)], hfa, by simp, hvalid, ?_⟩
      refine ⟨es[n - 1].2, ?_, ?_⟩
      · have : (k, es[n - 1].2) = es[n - 1] := by
          rw [← hk1]
        rw [this]
        exact List.getElem_mem hlt1
      · show remaining [(Page.leaf es, (n : Int) - 1)] =
          (k, es[n - 1].2) :: highsR (Page.leaf es).flatten k
        rw [hrem]
        have hhigh : highsR es k = es.drop n := by
          rw [← hk1]
          exact hsplit.1
        have heta : (k, es[n - 1].2) = es[n - 1] := by
          rw [← hk1]
        rw [heta]
        show es[n - 1] :: es.drop n = es[n - 1] :: highsR es k
        rw [hhigh]
    · rw [if_neg hcnt, if_neg hkeq] at hfind
      simp only [Page.isindex, Bool.false_eq_true, if_false] at hfind
      have hfa := findAct_of_terminal hfind (by simp)
      have hk1 : es[n - 1].1 ≠ k := by
        rwa [ikeys_getD_leaf hlt1] at hkeq
      have hfloor : keyLt k es[n - 1].1 = false := by
        have := floorCnt_lt_prop (Page.leaf es).ikeys k (j := n - 1) (by omega)
        rwa [ikeys_getD_leaf hlt1] at this
      have hsep : keyLt es[n - 1].1 k = true :=
        keyLt_of_ne_of_not_lt (Ne.symm hk1) hfloor
      have hsplit := sorted_split_at (M := es) hsrecs hdec
      have hAlt : ∀ e ∈ es.take (n - 1) ++ [es[n - 1]], keyLt e.1 k = true := by
        intro e he
        rcases List.mem_append.mp he with he | he
        · exact keyLt_trans (hsplit.2.2.1 e he) hsep
        · rw [List.mem_singleton.mp he]
          exact hsep
      have hBgt : ∀ e ∈ es.drop n, keyLt k e.1 = true := by
        by_cases hcase : n < es.length
        · have hdropdec : es.drop n = es[n] :: es.drop (n + 1) :=
            List.drop_eq_getElem_cons hcase
          have hsortB : sortedRecs (es.drop n) := by
            refine sortedRecs_infix (M := es) hsrecs (A := es.take n) (C := []) ?_
            simp
          have hhead : keyLt k es[n].1 = true := by
            have := floorCnt_ge_prop (Page.leaf es).ikeys k hsortk
              (j := n) (by omega) (by omega)
            rwa [ikeys_getD_leaf hcase] at this
          exact allGt_of_sorted_head hsortB hdropdec hhead
        · intro e he
          rw [List.drop_eq_nil_of_le (by omega)] at he
          cases he
      have hdec2 : es = (es.take (n - 1) ++ [es[n - 1]]) ++ es.drop n := by
        rw [List.append_assoc, List.singleton_append]
        exact hdec
      have hfilters := split_filters hAlt hBgt
      refine ⟨Act.lt, [(Page.leaf es, (n : Int) - 1)], hfa, by simp, hvalid, ?_, ?_⟩
      · intro e he
        rw [hdec2] at he
        exact hfilters.2.2 e he
      · refine ⟨es[n - 1], ?_, ?_⟩
        · show (lowsR es k).getLast? = some es[n - 1]
          rw [show lowsR es k = lowsR ((es.take (n - 1) ++ [es[n - 1]]) ++ es.drop n) k
            from by rw [← hdec2]]
          rw [hfilters.2.1]
          exact List.getLast?_concat _
        · show remaining [(Page.leaf es, (n : Int) - 1)] =
            es[n - 1] :: highsR es k
          rw [hrem]
          rw [show highsR es k = highsR ((es.take (n - 1) ++ [es[n - 1]]) ++ es.drop n) k
            from by rw [← hdec2]]
          rw [hfilters.1]

/-- Lifting an outcome through one index page level: records smaller than k
in front, records greater than k behind. -/
theorem findOutcome_lift {A B Mc R : List (Key × Val)} {k : Key} {a : Act}
    (hA : ∀ e ∈ A, keyLt e.1 k = true) (hB : ∀ e ∈ B, keyLt k e.1 = true)
    (hout : findOutcome a k Mc R) :
    findOutcome a k (A ++ Mc ++ B) (R ++ B) := by
  have hhigh : highsR (A ++ Mc ++ B) k = highsR Mc k ++ B := by
    unfold highsR
    rw [List.filter_append, List.filter_append]
    rw [show A.filter (fun e => keyLt k e.1) = [] from
      List.filter_eq_nil.mpr (fun e he => by rw [keyLt_asymm (hA e he)]; simp)]
    rw [show B.filter (fun e => keyLt k e.1) = B from
      List.filter_eq_self.mpr hB]
    simp
  have hlow : lowsR (A ++ Mc ++ B) k = A ++ lowsR Mc k := by
    unfold lowsR
    rw [List.filter_append, List.filter_append]
    rw [show A.filter (fun e => keyLt e.1 k) = A from
      List.filter_eq_self.mpr hA]
    rw [show B.filter (fun e => keyLt e.1 k) = [] from
      List.filter_eq_nil.mpr (fun e he => by rw [keyLt_asymm (hB e he)]; simp)]
    simp
  cases a with
  | recurse => exact hout.elim
  | eq =>
    obtain ⟨v, hv, hR⟩ := hout
    refine ⟨v, ?_, ?_⟩
    · exact List.mem_append.mpr (Or.inl (List.mem_append.mpr (Or.inr hv)))
    · rw [hhigh, hR, List.cons_append]
  | lt =>
    obtain ⟨hnok, r, hlast, hR⟩ := hout
    refine ⟨?_, r, ?_, ?_⟩
    · intro e he
      rcases List.mem_append.mp he with he | he
      · rcases List.mem_append.mp he with he | he
        · exact key_ne_of_lt (hA e he)
        · exact hnok e he
      · exact key_ne_of_gt (hB e he)
    · have hMcne : lowsR Mc k ≠ [] := by
        intro hcon
        rw [hcon] at hlast
        cases hlast
      rw [hlow, List.getLast?_append, hlast]
      rfl
    · rw [hhigh, hR, List.cons_append]
  | gt =>
    obtain ⟨hnok, hR⟩ := hout
    refine ⟨?_, ?_⟩
    · intro e he
      rcases List.mem_append.mp he with he | he
      · rcases List.mem_append.mp he with he | he
        · exact key_ne_of_lt (hA e he)
        · exact hnok e he
      · exact key_ne_of_gt (hB e he)
    · rw [hhigh, hR]

/-- Descent lemma: on a sorted nonempty subtree, BTree.find's descent loop
terminates with a sound and complete classification: eq lands exactly on the
record carrying the key, lt on the greatest smaller record with every greater
record still ahead, gt with exactly the greater records ahead and the key
absent. -/
theorem findAct_spec :
    ∀ (p : Page), p.pagesNonempty = true → sortedRecs p.flatten → ∀ (k : Key),
      ∃ a s, findAct p k = some (a, s) ∧ s ≠ [] ∧
        (∀ root rest, Anchored root p rest → Valid root (s ++ rest)) ∧
        findOutcome a k p.flatten (remaining s) := by
  intro p
  induction p using Page.myInd with
  | hleaf es =>
    intro hne hs k
    refine findAct_spec_leaf es ?_ hs k
    simp only [Page.pagesNonempty, Bool.not_eq_true'] at hne
    exact List.isEmpty_eq_false.mp hne
  | hnode pre es ihpre ihes =>
    intro hne hs k
    simp only [Page.pagesNonempty, Bool.and_eq_true] at hne
    obtain ⟨⟨hesne, hprene⟩, hents⟩ := hne
    have hnil : es ≠ [] := by
      simpa [List.isEmpty_eq_false] using hesne
    have hlen : 0 < es.length := List.length_pos.mpr hnil
    have hsortk := ikeys_pairwise (p := Page.node pre es) hs
    have hfind := page_find_spec (Page.node pre es) k hsortk
    have hflat : (Page.node pre es).flatten = pre.flatten ++ flattenEnts es := rfl
    have hklen : (Page.node pre es).ikeys.length = es.length := by
      rw [ikeys_length]; rfl
    have hcle : floorCnt (Page.node pre es).ikeys k ≤ es.length := by
      have := floorCnt_le_length (Page.node pre es).ikeys k
      omega
    have hidx : (Page.node pre es).isindex = true := rfl
    by_cases hcnt : floorCnt (Page.node pre es).ikeys k = 0
    · rw [if_pos hcnt, if_pos hidx] at hfind
      have hgp : (Page.node pre es).getpage (-1) = some pre := by
        simp [Page.getpage]
      have hsortpre : sortedRecs pre.flatten := by
        refine sortedRecs_infix (M := (Page.node pre es).flatten) hs (A := [])
          (C := flattenEnts es) ?_
        simp [hflat]
      obtain ⟨a, s, hfa', hsne, hval', hout'⟩ := ihpre hprene hsortpre k
      have hfa := findAct_of_recurse hfind hgp hfa'
      refine ⟨a, s ++ [(Page.node pre es, -1)], hfa, by simp, ?_, ?_⟩
      · intro root rest hanch
        rw [List.append_assoc, List.singleton_append]
        exact hval' root _ (Anchored.cons hgp ⟨rfl, by omega, by omega⟩ hanch)
      · have hremS : remaining (s ++ [(Page.node pre es, -1)]) =
            remaining s ++ flattenEnts es := by
          rw [remaining_append_of_ne hsne]
          simp [stackAfter, frameAfter]
        have hallB : ∀ e ∈ flattenEnts es, keyLt k e.1 = true := by
          have he0 : es.get? 0 = some es[0] := by
            rw [List.get?_eq_getElem?, List.getElem?_eq_getElem hlen]
          have hfe : flattenEnts es =
              entRec es[0] :: (es[0].2.2.flatten ++ flattenEnts (es.drop 1)) := by
            have := @flattenEnts_drop_eq es 0 es[0] he0
            simpa using this
          have hsortfe : sortedRecs (flattenEnts es) := by
            refine sortedRecs_infix (M := (Page.node pre es).flatten) hs
              (A := pre.flatten) (C := []) ?_
            simp [hflat]
          have hhead : keyLt k (entRec es[0]).1 = true := by
            have := floorCnt_ge_prop (Page.node pre es).ikeys k hsortk
              (j := 0) (by omega) (by omega)
            rwa [ikeys_getD_node hlen] at this
          exact allGt_of_sorted_head hsortfe hfe hhead
        have hlift := findOutcome_lift (A := [])
          (by intro e he; cases he) hallB hout'
        rw [hremS, hflat]
        simpa using hlift
    · set n := floorCnt (Page.node pre es).ikeys k with hn
      have hn1 : 1 ≤ n := by omega
      have hlt1 : n - 1 < es.length := by omega
      have he : es.get? (n - 1) = some es[n - 1] := by
        rw [List.get?_eq_getElem?, List.getElem?_eq_getElem hlt1]
      have hMdec : (Page.node pre es).flatten =
          (pre.flatten ++ flattenEnts (es.take (n - 1))) ++
            entRec es[n - 1] :: (es[n - 1].2.2.flatten ++ flattenEnts (es.drop n)) := by
        rw [hflat]
        conv_lhs => rw [← take_append_drop_ents es (n - 1)]
        rw [flattenEnts_drop_eq he]
        have hd : n - 1 + 1 = n := by omega
        rw [hd, List.append_assoc]
      by_cases hkeq : (Page.node pre es).ikeys.getD (n - 1) [] = k
      · rw [if_neg hcnt, if_pos hkeq] at hfind
        have hfa := findAct_of_terminal hfind (by simp)
        have hk1 : es[n - 1].1 = k := by
          rwa [ikeys_getD_node hlt1] at hkeq
        have hsplit := sorted_split_at hs hMdec
        refine ⟨Act.eq, [(Page.node pre es, (n : Int) - 1)], hfa, by simp, ?_, ?_⟩
        · intro root rest hanch
          refine Valid.mk ⟨by omega, ?_⟩ hanch
          simp only [Page.count]
          omega
        · refine ⟨es[n - 1].2.1, ?_, ?_⟩
          · have heta : (k, es[n - 1].2.1) = entRec es[n - 1] := by
              simp [entRec, ← hk1]
            rw [heta, hMdec]
            exact List.mem_append.mpr (Or.inr (List.mem_cons_self _ _))
          · show remaining [(Page.node pre es, (n : Int) - 1)] =
              (k, es[n - 1].2.1) :: highsR (Page.node pre es).flatten k
            have hrem : remaining [(Page.node pre es, (n : Int) - 1)] =
                entRec es[n - 1] ::
                  (es[n - 1].2.2.flatten ++ flattenEnts (es.drop n)) := by
              simp only [remaining, topRemaining, stackAfter, List.append_nil]
              have hd : ((n : Int) - 1).toNat = n - 1 := by omega
              rw [hd, flattenEnts_drop_eq he]
              have hd2 : n - 1 + 1 = n := by omega
              rw [hd2]
            rw [hrem]
            have hhigh := hsplit.1
            rw [show (entRec es[n - 1]).1 = k from hk1] at hhigh
            rw [hhigh]
            have heta : (k, es[n - 1].2.1) = entRec es[n - 1] := by
              simp [entRec, ← hk1]
            rw [heta]
      · rw [if_neg hcnt, if_neg hkeq, if_pos hidx] at hfind
        have hk1 : es[n - 1].1 ≠ k := by
          rwa [ikeys_getD_node hlt1] at hkeq
        have hfloor : keyLt k es[n - 1].1 = false := by
          have := floorCnt_lt_prop (Page.node pre es).ikeys k (j := n - 1) (by omega)
          rwa [ikeys_getD_node hlt1] at this
        have hsep : keyLt es[n - 1].1 k = true :=
          keyLt_of_ne_of_not_lt (Ne.symm hk1) hfloor
        have hgp : (Page.node pre es).getpage ((n : Int) - 1) = some es[n - 1].2.2 := by
          simp only [Page.getpage]
          rw [if_neg (by omega)]
          have hd : ((n : Int) - 1).toNat = n - 1 := by omega
          rw [hd, he]
          rfl
        have hsortc : sortedRecs es[n - 1].2.2.flatten := by
          refine sortedRecs_infix hs
            (A := (pre.flatten ++ flattenEnts (es.take (n - 1))) ++ [entRec es[n - 1]])
            (C := flattenEnts (es.drop n)) ?_
          rw [hMdec]
          simp [List.append_assoc]
        have hcne : es[n - 1].2.2.pagesNonempty = true :=
          entsNonempty_mem hents (List.getElem_mem hlt1)
        obtain ⟨a, s, hfa', hsne, hval', hout'⟩ :=
          ihes es[n - 1] (List.getElem_mem hlt1) hcne hsortc k
        have hfa := findAct_of_recurse hfind hgp hfa'
        refine ⟨a, s ++ [(Page.node pre es, (n : Int) - 1)], hfa, by simp, ?_, ?_⟩
        · intro root rest hanch
          rw [List.append_assoc, List.singleton_append]
          refine hval' root _ (Anchored.cons hgp ⟨rfl, by omega, ?_⟩ hanch)
          simp only [Page.count]
          omega
        · have hsplit := sorted_split_at hs hMdec
          have hA : ∀ e ∈ (pre.flatten ++ flattenEnts (es.take (n - 1))) ++
              [entRec es[n - 1]], keyLt e.1 k = true := by
            intro e hemem
            rcases List.mem_append.mp hemem with hm | hm
            · exact keyLt_trans (hsplit.2.2.1 e hm) hsep
            · rw [List.mem_singleton.mp hm]
              exact hsep
          have hB : ∀ e ∈ flattenEnts (es.drop n), keyLt k e.1 = true := by
            by_cases hcase : n < es.length
            · have hen : es.get? n = some es[n] := by
                rw [List.get?_eq_getElem?, List.getElem?_eq_getElem hcase]
              have hfeB : flattenEnts (es.drop n) =
                  entRec es[n] :: (es[n].2.2.flatten ++ flattenEnts (es.drop (n + 1))) :=
                flattenEnts_drop_eq hen
              have hsortB : sortedRecs (flattenEnts (es.drop n)) := by
                refine sortedRecs_infix hs
                  (A := (pre.flatten ++ flattenEnts (es.take (n - 1))) ++
                    entRec es[n - 1] :: es[n - 1].2.2.flatten) (C := []) ?_
                rw [hMdec]
                simp [List.append_assoc]
              have hhead : keyLt k (entRec es[n]).1 = true := by
                have := floorCnt_ge_prop (Page.node pre es).ikeys k hsortk
                  (j := n) (by omega) (by omega)
                rwa [ikeys_getD_node hcase] at this
              exact allGt_of_sorted_head hsortB hfeB hhead
            · intro e hemem
              rw [List.drop_eq_nil_of_le (by omega)] at hemem
              simp [flattenEnts] at hemem
          have hremS : remaining (s ++ [(Page.node pre es, (n : Int) - 1)]) =
              remaining s ++ flattenEnts (es.drop n) := by
            rw [remaining_append_of_ne hsne]
            simp only [stackAfter, frameAfter, List.append_nil]
            have hd : ((n : Int) - 1 + 1).toNat = n := by omega
            rw [hd]
          have hlift := findOutcome_lift hA hB hout'
          rw [hremS]
          rw [show (Page.node pre es).flatten =
              ((pre.flatten ++ flattenEnts (es.take (n - 1))) ++ [entRec es[n - 1]]) ++
                es[n - 1].2.2.flatten ++ flattenEnts (es.drop n) from by
            rw [hMdec]; simp [List.append_assoc]]
          exact hlift

theorem wfB_nonempty {root : Page} (h : wfB root = true) :
    root.pagesNonempty = true := by
  unfold wfB at h
  rw [Bool.and_eq_true] at h
  exact h.1

theorem wfB_sorted {root : Page} (h : wfB root = true) :
    sortedRecs root.flatten := by
  unfold wfB at h
  rw [Bool.and_eq_true] at h
  have := ascB_pairwise h.2
  unfold sortedRecs
  rwa [List.pairwise_map] at this

theorem sorted_key_unique {M : List (Key × Val)} (hs : sortedRecs M)
    {k : Key} {v v' : Val} (h1 : (k, v) ∈ M) (h2 : (k, v') ∈ M) : v = v' := by
  induction M with
  | nil => cases h1
  | cons x xs ih =>
    unfold sortedRecs at hs
    rw [List.pairwise_cons] at hs
    rcases List.mem_cons.mp h1 with h1 | h1 <;> rcases List.mem_cons.mp h2 with h2 | h2
    · rw [← h1] at h2
      exact congrArg Prod.snd h2.symm
    · exfalso
      have := hs.1 _ h2
      rw [← h1] at this
      simp only at this
      rw [keyLt_irrefl] at this
      cases this
    · exfalso
      have := hs.1 _ h1
      rw [← h2] at this
      simp only at this
      rw [keyLt_irrefl] at this
      cases this
    · exact ih hs.2 h1 h2

theorem eq_nil_of_append_eq_self {α : Type} {X Y : List α} (h : X ++ Y = Y) :
    X = [] := by
  have hl := congrArg List.length h
  simp only [List.length_append] at hl
  have : X.length = 0 := by omega
  exact List.eq_nil_of_length_eq_zero this

/-- Records of a well-formed tree that are at most k (the le filter). -/
def leF (M : List (Key × Val)) (k : Key) : List (Key × Val) :=
  M.filter (fun e => !(keyLt k e.1))

/-- Records of a well-formed tree that are at least k (the ge filter). -/
def geF (M : List (Key × Val)) (k : Key) : List (Key × Val) :=
  M.filter (fun e => !(keyLt e.1 k))

theorem leF_eq_lows_of_absent {M : List (Key × Val)} {k : Key}
    (hnok : ∀ e ∈ M, e.1 ≠ k) : leF M k = lowsR M k := by
  unfold leF lowsR
  apply List.filter_congr
  intro e he
  cases hlt : keyLt e.1 k
  · have := keyLt_of_ne_of_not_lt (hnok e he) hlt
    rw [this]
    rfl
  · rw [keyLt_asymm hlt]
    rfl

theorem geF_eq_highs_of_absent {M : List (Key × Val)} {k : Key}
    (hnok : ∀ e ∈ M, e.1 ≠ k) : geF M k = highsR M k := by
  unfold geF highsR
  apply List.filter_congr
  intro e he
  cases hlt : keyLt k e.1
  · have := keyLt_of_ne_of_not_lt (Ne.symm (hnok e he)) hlt
    rw [this]
    rfl
  · rw [keyLt_asymm hlt]
    rfl

/-- Root-level descent: the cursor of the descent is valid for the tree. -/
theorem findAct_root {root : Page} {k : Key} (hpn : root.pagesNonempty = true)
    (hsR : sortedRecs root.flatten) :
    ∃ a s, findAct root k = some (a, s) ∧ Valid root s ∧
      findOutcome a k root.flatten (remaining s) := by
  obtain ⟨a, s, hfa, _, hvgen, hout⟩ := findAct_spec root hpn hsR k
  refine ⟨a, s, hfa, ?_, hout⟩
  have := hvgen root [] Anchored.nil
  rwa [List.append_nil] at this

/-- Filter characterization around a record whose key is exactly k. -/
theorem geF_of_eq_split {R P H : List (Key × Val)} {k : Key} {v : Val}
    (hs : sortedRecs R) (hR : R = P ++ (k, v) :: H) :
    geF R k = (k, v) :: H ∧ leF R k = P ++ [(k, v)] ∧
      lowsR R k = P ∧ highsR R k = H := by
  have hsplit := sorted_split_at hs hR
  have hPlt : ∀ e ∈ P, keyLt e.1 k = true := hsplit.2.2.1
  have hHgt : ∀ e ∈ H, keyLt k e.1 = true := hsplit.2.2.2
  refine ⟨?_, ?_, hsplit.2.1, hsplit.1⟩
  · unfold geF
    rw [hR, List.filter_append]
    rw [show P.filter (fun e => !(keyLt e.1 k)) = [] from
      List.filter_eq_nil.mpr (fun e he => by rw [hPlt e he]; simp)]
    rw [List.filter_cons]
    rw [if_pos (by rw [keyLt_irrefl]; simp)]
    rw [show H.filter (fun e => !(keyLt e.1 k)) = H from
      List.filter_eq_self.mpr (fun e he => by rw [keyLt_asymm (hHgt e he)]; simp)]
    simp
  · unfold leF
    rw [hR, List.filter_append]
    rw [show P.filter (fun e => !(keyLt k e.1)) = P from
      List.filter_eq_self.mpr (fun e he => by rw [keyLt_asymm (hPlt e he)]; simp)]
    rw [List.filter_cons]
    rw [if_pos (by rw [keyLt_irrefl]; simp)]
    rw [show H.filter (fun e => !(keyLt k e.1)) = [] from
      List.filter_eq_nil.mpr (fun e he => by rw [hHgt e he]; simp)]

/-- When the key is absent and the records ahead are exactly those greater
than k, the records passed are exactly those smaller than k. -/
theorem passed_eq_lows_of_gt {R P : List (Key × Val)} {k : Key}
    (hnok : ∀ e ∈ R, e.1 ≠ k) (hR : R = P ++ highsR R k) :
    P = lowsR R k := by
  have hfit := congrArg (List.filter (fun e => keyLt k e.1)) hR
  rw [List.filter_append] at hfit
  rw [show (highsR R k).filter (fun e => keyLt k e.1) = highsR R k from
    List.filter_eq_self.mpr (fun e he => (List.mem_filter.mp he).2)] at hfit
  have hPnil : P.filter (fun e => keyLt k e.1) = [] := by
    have : P.filter (fun e => keyLt k e.1) ++ highsR R k = highsR R k := by
      exact hfit.symm
    exact eq_nil_of_append_eq_self this
  have hPlow : ∀ e ∈ P, keyLt e.1 k = true := by
    intro e he
    have hmemR : e ∈ R := by
      rw [hR]
      exact List.mem_append_left _ he
    have hno : keyLt k e.1 = false := by
      have := List.filter_eq_nil.mp hPnil e he
      cases hk : keyLt k e.1
      · rfl
      · rw [hk] at this
        simp at this
    exact keyLt_of_ne_of_not_lt (Ne.symm (hnok e hmemR)) hno
  have hlow := congrArg (List.filter (fun e => keyLt e.1 k)) hR
  rw [List.filter_append] at hlow
  rw [show P.filter (fun e => keyLt e.1 k) = P from
    List.filter_eq_self.mpr hPlow] at hlow
  rw [show (highsR R k).filter (fun e => keyLt e.1 k) = [] from
    List.filter_eq_nil.mpr (fun e he => by
      rw [keyLt_asymm (List.mem_filter.mp he).2]; simp)] at hlow
  rw [List.append_nil] at hlow
  exact hlow.symm

/-- BTree.find('eq', k) on a record that is present: returns a cursor
resting on exactly that record. -/
theorem findT_eq_found {root : Page} {k : Key} {v : Val} (hwf : wfB root = true)
    (hmem : (k, v) ∈ root.flatten) :
    ∃ s, findT root Rel.eq k = some (some s) ∧ Valid root s ∧
      cursorGetkey s = some k ∧ cursorGetval s = some v ∧
      remaining s = (k, v) :: highsR root.flatten k := by
  obtain ⟨a, s, hfa, hval, hout⟩ :=
    @findAct_root root k (wfB_nonempty hwf) (wfB_sorted hwf)
  cases a with
  | recurse => exact hout.elim
  | eq =>
    obtain ⟨v', hv', hrem⟩ := hout
    have hvv : v' = v := sorted_key_unique (wfB_sorted hwf) hv' hmem
    subst hvv
    refine ⟨s, by rw [findT, hfa], hval, ?_, ?_, hrem⟩
    · obtain ⟨r, rs, hr, hk, _⟩ := valid_getkey_getval hval
      rw [hrem] at hr
      injection hr with h1 _
      rw [← h1] at hk
      exact hk
    · obtain ⟨r, rs, hr, _, hv2⟩ := valid_getkey_getval hval
      rw [hrem] at hr
      injection hr with h1 _
      rw [← h1] at hv2
      exact hv2
  | lt => exact absurd rfl (hout.1 (k, v) hmem)
  | gt => exact absurd rfl (hout.1 (k, v) hmem)

/-- BTree.find('eq', k) on an absent key returns None. -/
theorem findT_eq_missing {root : Page} {k : Key} (hwf : wfB root = true)
    (hnok : ∀ e ∈ root.flatten, e.1 ≠ k) :
    findT root Rel.eq k = some none := by
  obtain ⟨a, s, hfa, hval, hout⟩ :=
    @findAct_root root k (wfB_nonempty hwf) (wfB_sorted hwf)
  cases a with
  | recurse => exact hout.elim
  | eq =>
    obtain ⟨v, hv, _⟩ := hout
    exact absurd rfl (hnok (k, v) hv)
  | lt => rw [findT, hfa]
  | gt => rw [findT, hfa]

/-- BTree.find('ge', k): the returned cursor has exactly the records with key
at least k ahead of it (eof when there are none). -/
theorem findT_ge_spec {root : Page} (hwf : wfB root = true) (k : Key) :
    ∃ s, findT root Rel.ge k = some (some s) ∧
      ((s = [] ∧ geF root.flatten k = []) ∨
        (Valid root s ∧ remaining s = geF root.flatten k)) := by
  obtain ⟨a, s, hfa, hval, hout⟩ :=
    @findAct_root root k (wfB_nonempty hwf) (wfB_sorted hwf)
  have hpart := valid_partition hval
  cases a with
  | recurse => exact hout.elim
  | eq =>
    obtain ⟨v, hv, hrem⟩ := hout
    refine ⟨s, by rw [findT, hfa], Or.inr ⟨hval, ?_⟩⟩
    have hR : root.flatten = passed s ++ (k, v) :: highsR root.flatten k := by
      rw [← hrem]
      exact hpart.symm
    rw [hrem, (geF_of_eq_split (wfB_sorted hwf) hR).1]
  | lt =>
    obtain ⟨hnok, r, hlast, hrem⟩ := hout
    obtain ⟨s2, hnext, hcase⟩ := next_step (wfB_nonempty hwf) hval
    have htail : (remaining s).tail = highsR root.flatten k := by
      rw [hrem]
      rfl
    refine ⟨s2, by rw [findT, hfa]; show Option.map some (nextC s) = some (some s2); rw [hnext]; rfl, ?_⟩
    have hgf := geF_eq_highs_of_absent (M := root.flatten) (k := k) hnok
    rcases hcase with ⟨ht, hs2⟩ | ⟨hval2, hrem2⟩
    · exact Or.inl ⟨hs2, by rw [hgf, ← htail, ht]⟩
    · exact Or.inr ⟨hval2, by rw [hrem2, htail, hgf]⟩
  | gt =>
    obtain ⟨hnok, hrem⟩ := hout
    refine ⟨s, by rw [findT, hfa], Or.inr ⟨hval, ?_⟩⟩
    rw [hrem, geF_eq_highs_of_absent hnok]

/-- BTree.find('gt', k): the returned cursor has exactly the records with key
strictly greater than k ahead of it (eof when there are none). -/
theorem findT_gt_spec {root : Page} (hwf : wfB root = true) (k : Key) :
    ∃ s, findT root Rel.gt k = some (some s) ∧
      ((s = [] ∧ highsR root.flatten k = []) ∨
        (Valid root s ∧ remaining s = highsR root.flatten k)) := by
  obtain ⟨a, s, hfa, hval, hout⟩ :=
    @findAct_root root k (wfB_nonempty hwf) (wfB_sorted hwf)
  cases a with
  | recurse => exact hout.elim
  | eq =>
    obtain ⟨v, hv, hrem⟩ := hout
    obtain ⟨s2, hnext, hcase⟩ := next_step (wfB_nonempty hwf) hval
    have htail : (remaining s).tail = highsR root.flatten k := by
      rw [hrem]
      rfl
    refine ⟨s2, by rw [findT, hfa]; show Option.map some (nextC s) = some (some s2); rw [hnext]; rfl, ?_⟩
    rcases hcase with ⟨ht, hs2⟩ | ⟨hval2, hrem2⟩
    · exact Or.inl ⟨hs2, by rw [← htail, ht]⟩
    · exact Or.inr ⟨hval2, by rw [hrem2, htail]⟩
  | lt =>
    obtain ⟨hnok, r, hlast, hrem⟩ := hout
    obtain ⟨s2, hnext, hcase⟩ := next_step (wfB_nonempty hwf) hval
    have htail : (remaining s).tail = highsR root.flatten k := by
      rw [hrem]
      rfl
    refine ⟨s2, by rw [findT, hfa]; show Option.map some (nextC s) = some (some s2); rw [hnext]; rfl, ?_⟩
    rcases hcase with ⟨ht, hs2⟩ | ⟨hval2, hrem2⟩
    · exact Or.inl ⟨hs2, by rw [← htail, ht]⟩
    · exact Or.inr ⟨hval2, by rw [hrem2, htail]⟩
  | gt =>
    obtain ⟨hnok, hrem⟩ := hout
    exact ⟨s, by rw [findT, hfa], Or.inr ⟨hval, hrem⟩⟩

/-- BTree.find('lt', k): the returned cursor rests on the record with the
greatest key strictly below k (eof when there is none). -/
theorem findT_lt_spec {root : Page} (hwf : wfB root = true) (k : Key) :
    ∃ s, findT root Rel.lt k = some (some s) ∧
      ((s = [] ∧ lowsR root.flatten k = []) ∨
        (Valid root s ∧ ∃ r, (lowsR root.flatten k).getLast? = some r ∧
          cursorGetkey s = some r.1 ∧ cursorGetval s = some r.2)) := by
  obtain ⟨a, s, hfa, hval, hout⟩ :=
    @findAct_root root k (wfB_nonempty hwf) (wfB_sorted hwf)
  have hpart := valid_partition hval
  cases a with
  | recurse => exact hout.elim
  | eq =>
    obtain ⟨v, hv, hrem⟩ := hout
    obtain ⟨s2, hprev, hcase⟩ := prev_step (wfB_nonempty hwf) hval
    have hR : root.flatten = passed s ++ (k, v) :: highsR root.flatten k := by
      rw [← hrem]
      exact hpart.symm
    have hlows : lowsR root.flatten k = passed s :=
      (geF_of_eq_split (wfB_sorted hwf) hR).2.2.1
    refine ⟨s2, by rw [findT, hfa]; show Option.map some (prevC s) = some (some s2); rw [hprev]; rfl, ?_⟩
    rcases hcase with ⟨hp, hs2⟩ | ⟨r, hval2, hpass, hrem2⟩
    · exact Or.inl ⟨hs2, by rw [hlows, hp]⟩
    · refine Or.inr ⟨hval2, r, ?_, ?_, ?_⟩
      · rw [hlows, hpass]
        exact List.getLast?_concat _
      · obtain ⟨r', rs, hr', hk, _⟩ := valid_getkey_getval hval2
        rw [hrem2] at hr'
        injection hr' with h1 _
        rw [← h1] at hk
        exact hk
      · obtain ⟨r', rs, hr', _, hv2⟩ := valid_getkey_getval hval2
        rw [hrem2] at hr'
        injection hr' with h1 _
        rw [← h1] at hv2
        exact hv2
  | lt =>
    obtain ⟨hnok, r, hlast, hrem⟩ := hout
    refine ⟨s, by rw [findT, hfa], Or.inr ⟨hval, r, hlast, ?_, ?_⟩⟩
    · obtain ⟨r', rs, hr', hk, _⟩ := valid_getkey_getval hval
      rw [hrem] at hr'
      injection hr' with h1 _
      rw [← h1] at hk
      exact hk
    · obtain ⟨r', rs, hr', _, hv2⟩ := valid_getkey_getval hval
      rw [hrem] at hr'
      injection hr' with h1 _
      rw [← h1] at hv2
      exact hv2
  | gt =>
    obtain ⟨hnok, hrem⟩ := hout
    obtain ⟨s2, hprev, hcase⟩ := prev_step (wfB_nonempty hwf) hval
    have hR : root.flatten = passed s ++ highsR root.flatten k := by
      rw [← hrem]
      exact hpart.symm
    have hlows : passed s = lowsR root.flatten k := passed_eq_lows_of_gt hnok hR
    refine ⟨s2, by rw [findT, hfa]; show Option.map some (prevC s) = some (some s2); rw [hprev]; rfl, ?_⟩
    rcases hcase with ⟨hp, hs2⟩ | ⟨r, hval2, hpass, hrem2⟩
    · exact Or.inl ⟨hs2, by rw [← hlows, hp]⟩
    · refine Or.inr ⟨hval2, r, ?_, ?_, ?_⟩
      · rw [← hlows, hpass]
        exact List.getLast?_concat _
      · obtain ⟨r', rs, hr', hk, _⟩ := valid_getkey_getval hval2
        rw [hrem2] at hr'
        injection hr' with h1 _
        rw [← h1] at hk
        exact hk
      · obtain ⟨r', rs, hr', _, hv2⟩ := valid_getkey_getval hval2
        rw [hrem2] at hr'
        injection hr' with h1 _
        rw [← h1] at hv2
        exact hv2

/-- BTree.find('le', k): the returned cursor rests on the record with the
greatest key at most k (eof when there is none). -/
theorem findT_le_spec {root : Page} (hwf : wfB root = true) (k : Key) :
    ∃ s, findT root Rel.le k = some (some s) ∧
      ((s = [] ∧ leF root.flatten k = []) ∨
        (Valid root s ∧ ∃ r, (leF root.flatten k).getLast? = some r ∧
          cursorGetkey s = some r.1 ∧ cursorGetval s = some r.2)) := by
  obtain ⟨a, s, hfa, hval, hout⟩ :=
    @findAct_root root k (wfB_nonempty hwf) (wfB_sorted hwf)
  have hpart := valid_partition hval
  cases a with
  | recurse => exact hout.elim
  | eq =>
    obtain ⟨v, hv, hrem⟩ := hout
    have hR : root.flatten = passed s ++ (k, v) :: highsR root.flatten k := by
      rw [← hrem]
      exact hpart.symm
    have hle : leF root.flatten k = passed s ++ [(k, v)] :=
      (geF_of_eq_split (wfB_sorted hwf) hR).2.1
    refine ⟨s, by rw [findT, hfa], Or.inr ⟨hval, (k, v), ?_, ?_, ?_⟩⟩
    · rw [hle]
      exact List.getLast?_concat _
    · obtain ⟨r', rs, hr', hk, _⟩ := valid_getkey_getval hval
      rw [hrem] at hr'
      injection hr' with h1 _
      rw [← h1] at hk
      exact hk
    · obtain ⟨r', rs, hr', _, hv2⟩ := valid_getkey_getval hval
      rw [hrem] at hr'
      injection hr' with h1 _
      rw [← h1] at hv2
      exact hv2
  | lt =>
    obtain ⟨hnok, r, hlast, hrem⟩ := hout
    have hle := leF_eq_lows_of_absent (M := root.flatten) (k := k) hnok
    refine ⟨s, by rw [findT, hfa], Or.inr ⟨hval, r, by rw [hle]; exact hlast, ?_, ?_⟩⟩
    · obtain ⟨r', rs, hr', hk, _⟩ := valid_getkey_getval hval
      rw [hrem] at hr'
      injection hr' with h1 _
      rw [← h1] at hk
      exact hk
    · obtain ⟨r', rs, hr', _, hv2⟩ := valid_getkey_getval hval
      rw [hrem] at hr'
      injection hr' with h1 _
      rw [← h1] at hv2
      exact hv2
  | gt =>
    obtain ⟨hnok, hrem⟩ := hout
    obtain ⟨s2, hprev, hcase⟩ := prev_step (wfB_nonempty hwf) hval
    have hR : root.flatten = passed s ++ highsR root.flatten k := by
      rw [← hrem]
      exact hpart.symm
    have hlows : passed s = lowsR root.flatten k := passed_eq_lows_of_gt hnok hR
    have hle := leF_eq_lows_of_absent (M := root.flatten) (k := k) hnok
    refine ⟨s2, by rw [findT, hfa]; show Option.map some (prevC s) = some (some s2); rw [hprev]; rfl, ?_⟩
    rcases hcase with ⟨hp, hs2⟩ | ⟨r, hval2, hpass, hrem2⟩
    · exact Or.inl ⟨hs2, by rw [hle, ← hlows, hp]⟩
    · refine Or.inr ⟨hval2, r, ?_, ?_, ?_⟩
      · rw [hle, ← hlows, hpass]
        exact List.getLast?_concat _
      · obtain ⟨r', rs, hr', hk, _⟩ := valid_getkey_getval hval2
        rw [hrem2] at hr'
        injection hr' with h1 _
        rw [← h1] at hk
        exact hk
      · obtain ⟨r', rs, hr', _, hv2⟩ := valid_getkey_getval hval2
        rw [hrem2] at hr'
        injection hr' with h1 _
        rw [← h1] at hv2
        exact hv2

theorem keyLt_nil_right (x : Key) : keyLt x [] = false := by
  cases x <;> rfl

/-- Scan loop: visit the current record, move with next, stop at eof; fuel
bounds the number of visits (none models nontermination or a broken
cursor). -/
def scanRecs : Nat → Stack → Option (List (Key × Val))
  | _, [] => some []
  | 0, _ :: _ => none
  | fuel + 1, f :: s =>
    match cursorGetkey (f :: s), cursorGetval (f :: s), nextC (f :: s) with
    | some k, some v, some s2 => (scanRecs fuel s2).map (fun l => (k, v) :: l)
    | _, _, _ => none

/-- Reverse scan loop: visit the current record, move with prev, stop at
eof. -/
def revScanRecs : Nat → Stack → Option (List (Key × Val))
  | _, [] => some []
  | 0, _ :: _ => none
  | fuel + 1, f :: s =>
    match cursorGetkey (f :: s), cursorGetval (f :: s), prevC (f :: s) with
    | some k, some v, some s2 => (revScanRecs fuel s2).map (fun l => (k, v) :: l)
    | _, _, _ => none

theorem scanRecs_nil (n : Nat) : scanRecs n [] = some [] := by
  cases n <;> rfl

theorem revScanRecs_nil (n : Nat) : revScanRecs n [] = some [] := by
  cases n <;> rfl

/-- Iterating next from any valid cursor visits exactly the records still
ahead, in order. -/
theorem scanRecs_spec {root : Page} (hpn : root.pagesNonempty = true) :
    ∀ (n : Nat) (s : Stack), Valid root s → (remaining s).length ≤ n →
      scanRecs n s = some (remaining s) := by
  intro n
  induction n with
  | zero =>
    intro s hv hlen
    obtain ⟨r, rs, hrem, _, _⟩ := valid_getkey_getval hv
    rw [hrem] at hlen
    simp at hlen
  | succ m ih =>
    intro s hv hlen
    obtain ⟨f, ss, hs⟩ : ∃ f ss, s = f :: ss := by
      cases hv with | @mk p i rest _ _ => exact ⟨(p, i), rest, rfl⟩
    subst hs
    obtain ⟨r, rs, hrem, hk, hvv⟩ := valid_getkey_getval hv
    obtain ⟨s2, hnext, hcase⟩ := next_step hpn hv
    rw [scanRecs, hk, hvv, hnext]
    show Option.map (fun l => (r.1, r.2) :: l) (scanRecs m s2) =
      some (remaining (f :: ss))
    rcases hcase with ⟨ht, hs2⟩ | ⟨hval2, hrem2⟩
    · rw [hrem] at ht
      simp only [List.tail_cons] at ht
      subst ht
      rw [hs2, scanRecs_nil]
      rw [hrem]
      rfl
    · rw [hrem] at hrem2
      simp only [List.tail_cons] at hrem2
      rw [ih s2 hval2 (by rw [hrem2]; rw [hrem] at hlen; simp at hlen; omega)]
      rw [hrem, hrem2]
      rfl

/-- Iterating prev from any valid cursor visits the current record and then
all passed records in reverse order. -/
theorem revScanRecs_spec {root : Page} (hpn : root.pagesNonempty = true) :
    ∀ (n : Nat) (s : Stack), Valid root s → (passed s).length < n →
      revScanRecs n s = some ((passed s ++ (remaining s).take 1).reverse) := by
  intro n
  induction n with
  | zero =>
    intro s hv hlen
    omega
  | succ m ih =>
    intro s hv hlen
    obtain ⟨f, ss, hs⟩ : ∃ f ss, s = f :: ss := by
      cases hv with | @mk p i rest _ _ => exact ⟨(p, i), rest, rfl⟩
    subst hs
    obtain ⟨r, rs, hrem, hk, hvv⟩ := valid_getkey_getval hv
    obtain ⟨s2, hprev, hcase⟩ := prev_step hpn hv
    rw [revScanRecs, hk, hvv, hprev]
    show Option.map (fun l => (r.1, r.2) :: l) (revScanRecs m s2) =
      some ((passed (f :: ss) ++ (remaining (f :: ss)).take 1).reverse)
    rcases hcase with ⟨hp, hs2⟩ | ⟨r2, hval2, hpass, hrem2⟩
    · rw [hs2, revScanRecs_nil, hp, hrem]
      rfl
    · have hlen2 : (passed s2).length < m := by
        have := congrArg List.length hpass
        simp at this
        omega
      rw [ih s2 hval2 hlen2]
      rw [hpass, hrem, hrem2, hrem]
      simp [List.reverse_append]

/-- A b-tree together with the record count declared by its header
(BTree.reccount, from parseheader15/parseheader16). -/
structure BTreeModel where
  root : Page
  reccount : Nat

/-- A well-formed database: well-formed tree whose declared record count
matches the records actually stored. -/
def wfM (db : BTreeModel) : Bool :=
  wfB db.root && (db.reccount == db.root.flatten.length)

theorem wfM_wfB {db : BTreeModel} (h : wfM db = true) : wfB db.root = true := by
  unfold wfM at h
  rw [Bool.and_eq_true] at h
  exact h.1

theorem wfM_count {db : BTreeModel} (h : wfM db = true) :
    db.reccount = db.root.flatten.length := by
  unfold wfM at h
  rw [Bool.and_eq_true] at h
  simpa using h.2

/-- C2: for every well-formed tree and key k, find('eq') returns the cursor
at the record with key k when present and None otherwise; find('lt') the
record with the greatest key below k (eof cursor when none); find('le') the
greatest key at most k; find('ge') the least key at least k; find('gt') the
least key above k (eof when none). -/
theorem c2_find_relational (root : Page) (k : Key) (hwf : wfB root = true) :
    (∀ v, (k, v) ∈ root.flatten →
      ∃ s, findT root Rel.eq k = some (some s) ∧
        cursorGetkey s = some k ∧ cursorGetval s = some v) ∧
    ((∀ e ∈ root.flatten, e.1 ≠ k) → findT root Rel.eq k = some none) ∧
    (∃ s, findT root Rel.lt k = some (some s) ∧
      ((s = [] ∧ lowsR root.flatten k = []) ∨
        ∃ r, (lowsR root.flatten k).getLast? = some r ∧
          cursorGetkey s = some r.1 ∧ cursorGetval s = some r.2)) ∧
    (∃ s, findT root Rel.le k = some (some s) ∧
      ((s = [] ∧ leF root.flatten k = []) ∨
        ∃ r, (leF root.flatten k).getLast? = some r ∧
          cursorGetkey s = some r.1 ∧ cursorGetval s = some r.2)) ∧
    (∃ s, findT root Rel.ge k = some (some s) ∧
      ((s = [] ∧ geF root.flatten k = []) ∨
        ∃ r, (geF root.flatten k).head? = some r ∧
          cursorGetkey s = some r.1 ∧ cursorGetval s = some r.2)) ∧
    (∃ s, findT root Rel.gt k = some (some s) ∧
      ((s = [] ∧ highsR root.flatten k = []) ∨
        ∃ r, (highsR root.flatten k).head? = some r ∧
          cursorGetkey s = some r.1 ∧ cursorGetval s = some r.2)) := by
  refine ⟨?_, fun hnok => findT_eq_missing hwf hnok, ?_, ?_, ?_, ?_⟩
  · intro v hmem
    obtain ⟨s, hf, _, hk, hv, _⟩ := findT_eq_found hwf hmem
    exact ⟨s, hf, hk, hv⟩
  · obtain ⟨s, hf, hcase⟩ := findT_lt_spec hwf k
    refine ⟨s, hf, ?_⟩
    rcases hcase with ⟨h1, h2⟩ | ⟨_, r, h1, h2, h3⟩
    · exact Or.inl ⟨h1, h2⟩
    · exact Or.inr ⟨r, h1, h2, h3⟩
  · obtain ⟨s, hf, hcase⟩ := findT_le_spec hwf k
    refine ⟨s, hf, ?_⟩
    rcases hcase with ⟨h1, h2⟩ | ⟨_, r, h1, h2, h3⟩
    · exact Or.inl ⟨h1, h2⟩
    · exact Or.inr ⟨r, h1, h2, h3⟩
  · obtain ⟨s, hf, hcase⟩ := findT_ge_spec hwf k
    refine ⟨s, hf, ?_⟩
    rcases hcase with ⟨h1, h2⟩ | ⟨hval, hrem⟩
    · exact Or.inl ⟨h1, h2⟩
    · obtain ⟨r, rs, hrem2, hk, hv⟩ := valid_getkey_getval hval
      refine Or.inr ⟨r, ?_, hk, hv⟩
      rw [← hrem, hrem2]
      rfl
  · obtain ⟨s, hf, hcase⟩ := findT_gt_spec hwf k
    refine ⟨s, hf, ?_⟩
    rcases hcase with ⟨h1, h2⟩ | ⟨hval, hrem⟩
    · exact Or.inl ⟨h1, h2⟩
    · obtain ⟨r, rs, hrem2, hk, hv⟩ := valid_getkey_getval hval
      refine Or.inr ⟨r, ?_, hk, hv⟩
      rw [← hrem, hrem2]
      rfl

/-- C3: starting from find('ge', empty key) and iterating next() until eof
visits exactly record_count records, each exactly once in stored order, with
keys strictly ascending; iterating prev() from the last record visits the
same records in exactly the reverse order. -/
theorem c3_full_scan (db : BTreeModel) (hwf : wfM db = true) :
    ∃ s, findT db.root Rel.ge [] = some (some s) ∧
      scanRecs db.reccount s = some db.root.flatten ∧
      db.root.flatten.length = db.reccount ∧
      ascB (db.root.flatten.map Prod.fst) = true ∧
      (∀ s2, Valid db.root s2 → (remaining s2).length = 1 →
        revScanRecs db.reccount s2 = some db.root.flatten.reverse) := by
  have hwfb : wfB db.root = true := wfM_wfB hwf
  have hcnt : db.reccount = db.root.flatten.length := wfM_count hwf
  have hpn := wfB_nonempty hwfb
  obtain ⟨s, hf, hcase⟩ := findT_ge_spec hwfb []
  have hgeF : geF db.root.flatten [] = db.root.flatten :=
    List.filter_eq_self.mpr (fun e _ => by rw [keyLt_nil_right]; rfl)
  rcases hcase with ⟨_, hempty⟩ | ⟨hval, hrem⟩
  · rw [hgeF] at hempty
    exact absurd hempty (flatten_ne_nil hpn)
  · refine ⟨s, hf, ?_, hcnt.symm, ?_, ?_⟩
    · have hscan := scanRecs_spec hpn db.reccount s hval
        (by rw [hrem, hgeF]; omega)
      rw [hscan, hrem, hgeF]
    · unfold wfB at hwfb
      rw [Bool.and_eq_true] at hwfb
      exact hwfb.2
    · intro s2 hval2 hlen1
      have hpart2 := valid_partition hval2
      have hplen : (passed s2).length < db.reccount := by
        have := congrArg List.length hpart2
        simp only [List.length_append] at this
        omega
      have hrev := revScanRecs_spec hpn db.reccount s2 hval2 hplen
      rw [hrev]
      have ht : (remaining s2).take 1 = remaining s2 :=
        List.take_of_length_le (by omega)
      rw [ht, hpart2]

mutual
/-- All pages of a subtree, the subtree's own root page included. -/
def subpages : Page → List Page
  | .leaf es => [Page.leaf es]
  | .node pre es => Page.node pre es :: (subpages pre ++ subpagesEnts es)

/-- All pages hanging below a list of index entries. -/
def subpagesEnts : List (Key × Val × Page) → List Page
  | [] => []
  | (_, _, c) :: rest => subpages c ++ subpagesEnts rest
end

theorem mem_subpagesEnts {es : List (Key × Val × Page)} {q : Page}
    (h : q ∈ subpagesEnts es) : ∃ e ∈ es, q ∈ subpages e.2.2 := by
  induction es with
  | nil => cases h
  | cons e rest ih =>
    obtain ⟨k, v, c⟩ := e
    simp only [subpagesEnts] at h
    rcases List.mem_append.mp h with h | h
    · exact ⟨(k, v, c), by simp, h⟩
    · obtain ⟨e', he', hq⟩ := ih h
      exact ⟨e', by simp [he'], hq⟩

/-- Every page of the tree contributes a contiguous run of the in-order
record list. -/
theorem subpage_flatten_infix {root : Page} :
    ∀ q ∈ subpages root, ∃ A C, root.flatten = A ++ q.flatten ++ C := by
  induction root using Page.myInd with
  | hleaf es =>
    intro q hq
    simp only [subpages, List.mem_singleton] at hq
    subst hq
    exact ⟨[], [], by simp⟩
  | hnode pre es ihpre ihes =>
    intro q hq
    simp only [subpages] at hq
    rcases List.mem_cons.mp hq with hq | hq
    · subst hq
      exact ⟨[], [], by simp⟩
    · rcases List.mem_append.mp hq with hq | hq
      · obtain ⟨A, C, hAC⟩ := ihpre q hq
        refine ⟨A, C ++ flattenEnts es, ?_⟩
        show pre.flatten ++ flattenEnts es = _
        rw [hAC]
        simp [List.append_assoc]
      · obtain ⟨e, he, hqe⟩ := mem_subpagesEnts hq
        obtain ⟨A, C, hAC⟩ := ihes e he q hqe
        obtain ⟨l1, l2, hsplit⟩ := List.append_of_mem he
        refine ⟨pre.flatten ++ flattenEnts l1 ++ [entRec e] ++ A, C ++ flattenEnts l2, ?_⟩
        show pre.flatten ++ flattenEnts es = _
        rw [hsplit, flattenEnts_append]
        obtain ⟨k, v, c⟩ := e
        simp only [flattenEnts]
        simp only at hAC
        rw [hAC]
        simp [List.append_assoc, entRec]

theorem subpage_sorted {root : Page} (hs : sortedRecs root.flatten) :
    ∀ q ∈ subpages root, sortedRecs q.flatten := by
  intro q hq
  obtain ⟨A, C, hAC⟩ := subpage_flatten_infix q hq
  exact sortedRecs_infix hs hAC

/-- Separator bounds for every index entry of every page of a well-formed
tree: the separator key is a strict lower bound for its own child subtree
and for the next sibling's child subtree, and the records reached through
the preceeding pointer all lie strictly below the first separator. -/
theorem separator_bounds (root : Page) (hwf : wfB root = true) :
    ∀ q ∈ subpages root, ∀ pre es, q = Page.node pre es →
      (∀ j e, es.get? j = some e →
        (∀ rec ∈ e.2.2.flatten, keyLt e.1 rec.1 = true) ∧
        (∀ e', es.get? (j + 1) = some e' →
          ∀ rec ∈ e'.2.2.flatten, keyLt e.1 rec.1 = true)) ∧
      (∀ e0, es.get? 0 = some e0 →
        ∀ rec ∈ pre.flatten, keyLt rec.1 e0.1 = true) := by
  intro q hq pre es hqeq
  have hsq : sortedRecs q.flatten := subpage_sorted (wfB_sorted hwf) q hq
  subst hqeq
  constructor
  · intro j e he
    have hdec : (Page.node pre es).flatten =
        (pre.flatten ++ flattenEnts (es.take j)) ++
          entRec e :: (e.2.2.flatten ++ flattenEnts (es.drop (j + 1))) := by
      show pre.flatten ++ flattenEnts es = _
      conv_lhs => rw [← take_append_drop_ents es j]
      rw [flattenEnts_drop_eq he]
      simp [List.append_assoc]
    have hsplit := sorted_split_at hsq hdec
    have hafter := hsplit.2.2.2
    constructor
    · intro rec hrec
      exact hafter rec (List.mem_append.mpr (Or.inl hrec))
    · intro e' he' rec hrec
      refine hafter rec (List.mem_append.mpr (Or.inr ?_))
      rw [flattenEnts_drop_eq he']
      exact List.mem_cons.mpr (Or.inr (List.mem_append.mpr (Or.inl hrec)))
  · intro e0 he0 rec hrec
    have hdec : (Page.node pre es).flatten =
        pre.flatten ++ entRec e0 :: (e0.2.2.flatten ++ flattenEnts (es.drop 1)) := by
      show pre.flatten ++ flattenEnts es = _
      conv_lhs => rw [← take_append_drop_ents es 0]
      rw [flattenEnts_drop_eq he0]
      simp [flattenEnts]
    have hsplit := sorted_split_at hsq hdec
    exact hsplit.2.2.1 rec hrec

theorem ascendNext_push {p : Page} {ix : Int} (h : ix < (p.count : Int))
    (rest : Stack) : ascendNext p ix rest = (p, ix) :: rest := by
  cases rest with
  | nil =>
    simp only [ascendNext]
    rw [if_pos h]
  | cons f r =>
    obtain ⟨q, j⟩ := f
    simp only [ascendNext]
    rw [if_neg (by omega), if_pos h]

theorem ascendPrev_irrel {p p' : Page} {ix : Int} (h : ix < 0) (rest : Stack) :
    ascendPrev p ix rest = ascendPrev p' ix rest := by
  cases rest with
  | nil =>
    simp only [ascendPrev]
    rw [if_neg (by omega), if_neg (by omega)]
  | cons f r =>
    obtain ⟨q, j⟩ := f
    simp only [ascendPrev]
    rw [if_pos h, if_pos h]

/-- The rightmost spine of a subtree: the frames Cursor.prev pushes when it
descends to the last record of the subtree, each page at its last slot. -/
inductive ChainedRight : Page → Stack → Prop where
  | leaf (es : List (Key × Val)) :
      ChainedRight (Page.leaf es) [(Page.leaf es, (es.length : Int) - 1)]
  | node {pre : Page} {es : List (Key × Val × Page)} {c : Page} {acc : Stack} :
      Page.getpage (Page.node pre es) ((es.length : Int) - 1) = some c →
      ChainedRight c acc →
      ChainedRight (Page.node pre es)
        (acc ++ [(Page.node pre es, (es.length : Int) - 1)])

theorem rightDesc_node {pre : Page} {es : List (Key × Val × Page)} {c : Page}
    {ix : Int} (hc : Page.getpage (Page.node pre es) ix = some c)
    {seg : Stack} (hs : rightDesc c ((c.count : Int) - 1) = some seg) :
    rightDesc (Page.node pre es) ix = some (seg ++ [(Page.node pre es, ix)]) := by
  rw [rightDesc]
  split
  · rename_i heq
    rw [hc] at heq
    cases heq
  · rename_i q heq
    rw [hc] at heq
    cases heq
    rw [hs]

theorem prevC_node {pre : Page} {es : List (Key × Val × Page)} {ix : Int}
    {rest : Stack} {seg : Stack}
    (h : rightDesc (Page.node pre es) (ix - 1) = some seg) :
    prevC ((Page.node pre es, ix) :: rest) = some (seg ++ rest) := by
  simp only [prevC, Page.isleaf, Bool.false_eq_true, if_false]
  rw [h]

theorem rightDesc_of_chain : ∀ {c : Page} {acc : Stack}, ChainedRight c acc →
    rightDesc c ((c.count : Int) - 1) = some acc := by
  intro c acc hch
  induction hch with
  | leaf es => simp [rightDesc, Page.count]
  | @node pre es c' acc' hget _ ih =>
    have hcnt : ((Page.node pre es).count : Int) = (es.length : Int) := by
      simp [Page.count]
    rw [hcnt]
    exact rightDesc_node hget ih

/-- The ascent loop of next inverts the rightmost descent of prev: popping
an exhausted rightmost spine and stopping on the parent slot, prev rebuilds
exactly the popped frames. -/
theorem ascendNext_prev {root : Page} :
    ∀ (rest : Stack) (p : Page) (acc : Stack),
      ChainedRight p acc → Anchored root p rest →
      ascendNext p (p.count : Int) rest = [] ∨
      ∃ s2, ascendNext p (p.count : Int) rest = s2 ∧
        prevC s2 = some (acc ++ rest) := by
  intro rest
  induction rest with
  | nil =>
    intro p acc _ _
    left
    simp only [ascendNext]
    rw [if_neg (by omega)]
  | cons f rest2 ih =>
    obtain ⟨q, j⟩ := f
    intro p acc hch hanch
    cases hanch with
    | cons hget hgood hanch2 =>
      obtain ⟨hidx, hj1, hj2⟩ := hgood
      have hstep : ascendNext p (p.count : Int) ((q, j) :: rest2) =
          ascendNext q (j + 1) rest2 := by
        simp [ascendNext]
      rw [hstep]
      by_cases hjc : j + 1 = (q.count : Int)
      · cases q with
        | leaf es => simp [Page.isindex] at hidx
        | node pre es =>
          have hj' : j = ((es.length : Int)) - 1 := by
            simp only [Page.count] at hjc
            omega
          have hch2 : ChainedRight (Page.node pre es)
              (acc ++ [(Page.node pre es, j)]) := by
            rw [hj']
            exact ChainedRight.node (hj' ▸ hget) hch
          rcases ih (Page.node pre es) (acc ++ [(Page.node pre es, j)]) hch2 hanch2
            with h | ⟨s2, hs2, hprev⟩
          · left
            rw [hjc]
            exact h
          · right
            refine ⟨s2, by rw [hjc]; exact hs2, ?_⟩
            rw [hprev]
            simp
      · have hlt : j + 1 < (q.count : Int) := by omega
        have hpush := ascendNext_push hlt rest2
        right
        cases q with
        | leaf es => simp [Page.isindex] at hidx
        | node pre es =>
          refine ⟨(Page.node pre es, j + 1) :: rest2, hpush, ?_⟩
          have hj1' : j + 1 - 1 = j := by omega
          have hrd : rightDesc (Page.node pre es) (j + 1 - 1) =
              some (acc ++ [(Page.node pre es, j + 1 - 1)]) := by
            rw [hj1']
            exact rightDesc_node hget (rightDesc_of_chain hch)
          rw [prevC_node hrd, hj1']
          simp

theorem prevC_leftSpine : ∀ (c : Page) (rest2 : Stack) (p0 : Page),
    prevC (leftSpine c ++ rest2) = some (ascendPrev p0 (-1) rest2) := by
  intro c
  induction c using Page.myInd with
  | hleaf es =>
    intro rest2 p0
    simp only [leftSpine, List.singleton_append]
    simp only [prevC, Page.isleaf, if_true]
    congr 1
    rw [show ((0 : Int) - 1) = -1 from by omega]
    exact ascendPrev_irrel (by omega) rest2
  | hnode pre es ihpre _ =>
    intro rest2 p0
    simp only [leftSpine]
    rw [List.append_assoc, List.singleton_append]
    rw [ihpre ((Page.node pre es, -1) :: rest2) p0]
    congr 1
    simp only [ascendPrev]
    rw [if_pos (by omega)]
    exact ascendPrev_irrel (by omega) rest2

/-- The ascent loop of prev inverts the leftmost descent of next: popping the
frames pushed along a leftmost spine and stopping on the parent slot, next
rebuilds exactly that spine. -/
theorem ascendPrev_next {root : Page} :
    ∀ (rest : Stack) (c0 : Page) (p0 : Page), Anchored root c0 rest →
      ascendPrev p0 (-1) rest = [] ∨
      ∃ s2, ascendPrev p0 (-1) rest = s2 ∧
        nextC s2 = some (leftSpine c0 ++ rest) := by
  intro rest
  induction rest with
  | nil =>
    intro c0 p0 _
    left
    simp only [ascendPrev]
    rw [if_neg (by omega)]
  | cons f rest2 ih =>
    obtain ⟨q, j⟩ := f
    intro c0 p0 hanch
    cases hanch with
    | cons hget hgood hanch2 =>
      obtain ⟨hidx, hj1, hj2⟩ := hgood
      have hstep : ascendPrev p0 (-1) ((q, j) :: rest2) = ascendPrev q j rest2 := by
        simp only [ascendPrev]
        rw [if_pos (by omega)]
      rw [hstep]
      by_cases hj : 0 ≤ j
      · right
        refine ⟨(q, j) :: rest2, ascendPrev_stop q hj rest2, ?_⟩
        cases q with
        | leaf es => simp [Page.isindex] at hidx
        | node pre es =>
          simp only [nextC, Page.isleaf, Bool.false_eq_true, if_false]
          rw [hget]
      · have hjm : j = -1 := by omega
        subst hjm
        cases q with
        | leaf es => simp [Page.isindex] at hidx
        | node pre es =>
          have hc0 : c0 = pre := by
            simp only [Page.getpage] at hget
            rw [if_pos (by omega)] at hget
            injection hget with h'
            exact h'.symm
          subst hc0
          rw [@ascendPrev_irrel (Page.node c0 es) p0 (-1) (by omega) rest2]
          rcases ih (Page.node c0 es) p0 hanch2 with h | ⟨s2, hs2, hnext⟩
          · left
            exact h
          · right
            refine ⟨s2, hs2, ?_⟩
            rw [hnext]
            simp [leftSpine]

/-- Cursor.next then Cursor.prev restores the cursor stack exactly, provided
next did not fall off the end of the tree. -/
theorem nextC_prevC_roundtrip {root : Page} {s s2 : Stack} (hv : Valid root s)
    (hnext : nextC s = some s2) (hne : s2 ≠ []) : prevC s2 = some s := by
  cases hv with
  | @mk p i rest hgood hanch =>
    obtain ⟨h0, hlt⟩ := hgood
    cases p with
    | leaf es =>
      have hpc : nextC ((Page.leaf es, i) :: rest) =
          some (ascendNext (Page.leaf es) (i + 1) rest) := by
        simp [nextC, Page.isleaf]
      rw [hpc] at hnext
      injection hnext with hs2eq
      by_cases hi : i + 1 < ((Page.leaf es).count : Int)
      · rw [ascendNext_push hi rest] at hs2eq
        subst hs2eq
        simp only [prevC, Page.isleaf, if_true]
        congr 1
        rw [show i + 1 - 1 = i from by omega]
        exact ascendPrev_stop _ h0 rest
      · have hcnt : i + 1 = ((Page.leaf es).count : Int) := by omega
        have hch : ChainedRight (Page.leaf es) [(Page.leaf es, i)] := by
          have hieq : i = ((es.length : Int)) - 1 := by
            simp only [Page.count] at hcnt
            omega
          rw [hieq]
          exact ChainedRight.leaf es
        rw [hcnt] at hs2eq
        rcases ascendNext_prev rest (Page.leaf es) [(Page.leaf es, i)] hch hanch
          with h | ⟨s2', hs2', hprev⟩
        · rw [h] at hs2eq
          exact absurd hs2eq.symm hne
        · rw [hs2'] at hs2eq
          subst hs2eq
          rw [hprev]
          simp
    | node pre es =>
      obtain ⟨e, he⟩ := get_of_slot h0 (by simpa [Page.count] using hlt)
      have hc : (Page.node pre es).getpage i = some e.2.2 := by
        simp only [Page.getpage]
        rw [if_neg (by omega), he]
        rfl
      have hpc : nextC ((Page.node pre es, i) :: rest) =
          some (leftSpine e.2.2 ++ (Page.node pre es, i) :: rest) := by
        simp only [nextC, Page.isleaf, Bool.false_eq_true, if_false]
        rw [hc]
      rw [hpc] at hnext
      injection hnext with hs2eq
      subst hs2eq
      rw [prevC_leftSpine e.2.2 ((Page.node pre es, i) :: rest) (Page.leaf [])]
      congr 1
      simp only [ascendPrev]
      rw [if_pos (by omega)]
      exact ascendPrev_stop _ h0 rest

/-- The head of a rightmost spine is a leaf frame, and the ascent loop of
next pops the whole exhausted spine and then keeps ascending past it. -/
theorem chain_ascend : ∀ {c : Page} {acc : Stack}, ChainedRight c acc →
    ∃ les il accT, acc = (Page.leaf les, il) :: accT ∧
      ∀ (q : Page) (j : Int) (r : Stack),
        ascendNext (Page.leaf les) (il + 1) (accT ++ (q, j) :: r) =
          ascendNext q (j + 1) r := by
  intro c acc hch
  induction hch with
  | leaf es =>
    refine ⟨es, (es.length : Int) - 1, [], rfl, ?_⟩
    intro q j r
    simp only [List.nil_append, ascendNext]
    rw [if_pos (by simp only [Page.count]; omega)]
  | @node pre es c' acc' _ _ ih =>
    obtain ⟨les, il, accT, heq, hP⟩ := ih
    refine ⟨les, il, accT ++ [(Page.node pre es, (es.length : Int) - 1)],
      by rw [heq]; simp, ?_⟩
    intro q j r
    rw [List.append_assoc, List.singleton_append]
    rw [hP (Page.node pre es) ((es.length : Int) - 1) ((q, j) :: r)]
    simp only [ascendNext]
    rw [if_pos (by simp only [Page.count]; omega)]

theorem rightDesc_inv {pre : Page} {es : List (Key × Val × Page)} {ix : Int}
    {seg : Stack} (h : rightDesc (Page.node pre es) ix = some seg) :
    ∃ c segc, Page.getpage (Page.node pre es) ix = some c ∧
      rightDesc c ((c.count : Int) - 1) = some segc ∧
      seg = segc ++ [(Page.node pre es, ix)] := by
  rw [rightDesc] at h
  split at h
  · cases h
  · rename_i c heq
    split at h
    · cases h
    · rename_i segc heq2
      injection h with h'
      exact ⟨c, segc, heq, heq2, h'.symm⟩

/-- A successful rightmost descent from the last slot of a page produces
exactly the rightmost spine of that page. -/
theorem rightDesc_chain : ∀ (c : Page) (seg : Stack),
    rightDesc c ((c.count : Int) - 1) = some seg → ChainedRight c seg := by
  intro c
  induction c using Page.myInd with
  | hleaf es =>
    intro seg h
    rw [rightDesc] at h
    injection h with h'
    rw [← h']
    have hc : ((Page.leaf es).count : Int) = (es.length : Int) := by
      simp [Page.count]
    rw [hc]
    exact ChainedRight.leaf es
  | hnode pre es ihpre ihes =>
    intro seg h
    obtain ⟨c', segc, hget, hrd, hseg⟩ := rightDesc_inv h
    subst hseg
    have hcnt : ((Page.node pre es).count : Int) = (es.length : Int) := by
      simp [Page.count]
    rw [hcnt] at hget ⊢
    have hch : ChainedRight c' segc := by
      by_cases hlen : es.length = 0
      · have hpre : c' = pre := by
          simp only [Page.getpage] at hget
          rw [if_pos (by omega)] at hget
          cases hget
          rfl
        subst hpre
        exact ihpre segc hrd
      · have hnn : ¬ ((es.length : Int) - 1 < 0) := by omega
        simp only [Page.getpage] at hget
        rw [if_neg hnn] at hget
        cases hes : es.get? ((es.length : Int) - 1).toNat with
        | none => rw [hes] at hget; cases hget
        | some e =>
          rw [hes] at hget
          injection hget with hget'
          subst hget'
          exact ihes e (List.get?_mem hes) segc hrd
    exact ChainedRight.node hget hch

/-- Cursor.prev then Cursor.next restores the cursor stack exactly, provided
prev did not fall off the front of the tree. -/
theorem prevC_nextC_roundtrip {root : Page} {s s2 : Stack} (hv : Valid root s)
    (hprev : prevC s = some s2) (hne : s2 ≠ []) : nextC s2 = some s := by
  cases hv with
  | @mk p i rest hgood hanch =>
    obtain ⟨h0, hlt⟩ := hgood
    cases p with
    | leaf es =>
      have hpc : prevC ((Page.leaf es, i) :: rest) =
          some (ascendPrev (Page.leaf es) (i - 1) rest) := by
        simp [prevC, Page.isleaf]
      rw [hpc] at hprev
      injection hprev with hs2eq
      by_cases hi : 1 ≤ i
      · rw [ascendPrev_stop _ (show (0:Int) ≤ i - 1 by omega) rest] at hs2eq
        subst hs2eq
        simp only [nextC, Page.isleaf, if_true]
        congr 1
        rw [show i - 1 + 1 = i from by omega]
        exact ascendNext_push hlt rest
      · have hi0 : i = 0 := by omega
        subst hi0
        rw [show (0:Int) - 1 = -1 from by omega] at hs2eq
        rcases ascendPrev_next rest (Page.leaf es) (Page.leaf es) hanch
          with h | ⟨s2', hs2', hnext⟩
        · rw [h] at hs2eq
          exact absurd hs2eq.symm hne
        · rw [hs2'] at hs2eq
          subst hs2eq
          rw [hnext]
          simp [leftSpine]
    | node pre es =>
      cases hrd : rightDesc (Page.node pre es) (i - 1) with
      | none =>
        rw [prevC, if_neg (by simp [Page.isleaf]), hrd] at hprev
        cases hprev
      | some seg =>
        rw [prevC_node hrd] at hprev
        injection hprev with hs2eq
        subst hs2eq
        obtain ⟨c', segc, hget, hrdc, hseg⟩ := rightDesc_inv hrd
        subst hseg
        have hch := rightDesc_chain c' segc hrdc
        obtain ⟨les, il, accT, heq, hP⟩ := chain_ascend hch
        subst heq
        simp only [List.cons_append]
        simp only [nextC, Page.isleaf, if_true]
        rw [List.append_assoc, List.singleton_append]
        rw [hP (Page.node pre es) (i - 1) rest]
        rw [show i - 1 + 1 = i from by omega]
        rw [ascendNext_push hlt rest]

/-- C1 (corrected): in a well-formed B-tree the separator key of an index
entry is a strict LOWER bound of its child subtree, not an upper bound: every
reconstructed key stored in the subtree rooted at the entry's child page is
strictly greater than the separator key; keys in the next sibling entry's
child subtree are also strictly greater than the separator, and the keys
reached through the preceeding-page pointer are strictly smaller than the
page's first separator. -/
theorem c1_separator_direction (root : Page) (hwf : wfB root = true) :
    ∀ q ∈ subpages root, ∀ pre es, q = Page.node pre es →
      (∀ j e, es.get? j = some e →
        (∀ rec ∈ e.2.2.flatten, keyLt e.1 rec.1 = true) ∧
        (∀ e', es.get? (j + 1) = some e' →
          ∀ rec ∈ e'.2.2.flatten, keyLt e.1 rec.1 = true)) ∧
      (∀ e0, es.get? 0 = some e0 →
        ∀ rec ∈ pre.flatten, keyLt rec.1 e0.1 = true) :=
  separator_bounds root hwf

/-- Witness for C1 on a concrete two-level tree: the entry with separator key
[98] has child subtree holding the single record with key [99] > [98]. -/
theorem c1_separator_direction_witness :
    wfB (Page.node (Page.leaf [([97], [1])])
        [([98], [2], Page.leaf [([99], [3])])]) = true ∧
    keyLt [98] [99] = true := by
  refine ⟨by decide, ?_⟩
  have h := c1_separator_direction
    (Page.node (Page.leaf [([97], [1])]) [([98], [2], Page.leaf [([99], [3])])])
    (by decide)
  have h2 := (h (Page.node (Page.leaf [([97], [1])])
      [([98], [2], Page.leaf [([99], [3])])])
    (by simp [subpages]) (Page.leaf [([97], [1])])
    [([98], [2], Page.leaf [([99], [3])])] rfl).1 0
    ([98], [2], Page.leaf [([99], [3])]) rfl
  exact h2.1 ([99], [3]) (by simp [Page.flatten])

/-- C1 counterexample to the claim as stated: in a well-formed tree the child
page of the index entry with separator key [98] stores the key [99], which is
strictly greater than the separator — so not every key of the child subtree
is ≤ the separator. -/
theorem c1_counterexample :
    wfB (Page.node (Page.leaf [([97], [1])])
        [([98], [2], Page.leaf [([99], [3])])]) = true ∧
    (Page.node (Page.leaf [([97], [1])])
        [([98], [2], Page.leaf [([99], [3])])]).getpage 0 =
      some (Page.leaf [([99], [3])]) ∧
    ([99], [3]) ∈ (Page.leaf [([99], [3])]).flatten ∧
    keyLt [98] [99] = true ∧ ¬ ([99] : Key) = [98] := by
  refine ⟨by decide, ?_, by simp [Page.flatten], by decide, by decide⟩
  simp [Page.getpage]

/-- C5 (corrected): for a valid cursor positioned at a record, next() then
prev() restores exactly the same cursor stack (hence the same (page,
entry_index) top frame), PROVIDED next() does not walk off the end of the
tree; symmetrically prev() then next() restores the stack provided prev()
does not walk off the front.  At the boundary the stack empties and the
opposite call pops an empty stack instead of returning to the frame. -/
theorem c5_cursor_roundtrip {root : Page} {s s2 : Stack} (hv : Valid root s) :
    (nextC s = some s2 → s2 ≠ [] → prevC s2 = some s) ∧
    (prevC s = some s2 → s2 ≠ [] → nextC s2 = some s) :=
  ⟨fun h hne => nextC_prevC_roundtrip hv h hne,
   fun h hne => prevC_nextC_roundtrip hv h hne⟩

/-- Witness for C5 on a two-record leaf: stepping from the first record to
the second and back restores the original stack. -/
theorem c5_cursor_roundtrip_witness :
    nextC [(Page.leaf [([1], [10]), ([2], [20])], 0)] =
      some [(Page.leaf [([1], [10]), ([2], [20])], 1)] ∧
    prevC [(Page.leaf [([1], [10]), ([2], [20])], 1)] =
      some [(Page.leaf [([1], [10]), ([2], [20])], 0)] := by
  have hv : Valid (Page.leaf [([1], [10]), ([2], [20])])
      [(Page.leaf [([1], [10]), ([2], [20])], 0)] :=
    Valid.mk ⟨by decide, by decide⟩ Anchored.nil
  have hnext : nextC [(Page.leaf [([1], [10]), ([2], [20])], 0)] =
      some [(Page.leaf [([1], [10]), ([2], [20])], 1)] := by
    simp [nextC, ascendNext, Page.isleaf, Page.count]
  exact ⟨hnext, (c5_cursor_roundtrip hv).1 hnext (by simp)⟩

/-- C5 counterexample to the claim as stated: on a one-record tree the valid
cursor at the only record has next() empty the stack, and prev() on the
emptied cursor fails (it pops an empty stack), so next();prev() does not
return to the starting frame. -/
theorem c5_counterexample :
    Valid (Page.leaf [([1], [10])]) [(Page.leaf [([1], [10])], 0)] ∧
    nextC [(Page.leaf [([1], [10])], 0)] = some [] ∧
    prevC ([] : Stack) = none := by
  refine ⟨Valid.mk ⟨by decide, by decide⟩ Anchored.nil, ?_, rfl⟩
  simp [nextC, ascendNext, Page.isleaf, Page.count]

/-! Byte-level embedding.  A Python bytes object is a List Nat (each element
a byte value); Python slicing data[ofs:ofs+n] clamps at the end of the
buffer, struct.unpack_from raises when fewer bytes than the format needs
remain (modelled as none). -/

/-- data[ofs:ofs+n]. -/
def pyslice (data : List Nat) (ofs n : Nat) : List Nat :=
  (data.drop ofs).take n

/-- struct.unpack_from("<H", data, ofs). -/
def le16 (data : List Nat) (ofs : Nat) : Option Nat :=
  match data.drop ofs with
  | b0 :: b1 :: _ => some (b0 + 256 * b1)
  | _ => none

/-- struct.unpack_from("<L", data, ofs). -/
def le32 (data : List Nat) (ofs : Nat) : Option Nat :=
  match data.drop ofs with
  | b0 :: b1 :: b2 :: b3 :: _ =>
    some (b0 + 256 * b1 + 65536 * b2 + 16777216 * b3)
  | _ => none

/-- struct.unpack_from("<Q", data, ofs). -/
def le64 (data : List Nat) (ofs : Nat) : Option Nat :=
  match data.drop ofs with
  | b0 :: b1 :: b2 :: b3 :: b4 :: b5 :: b6 :: b7 :: _ =>
    some (b0 + 256 * b1 + 65536 * b2 + 16777216 * b3 +
      4294967296 * b4 + 1099511627776 * b5 + 281474976710656 * b6 +
      72057594037927936 * b7)
  | _ => none

/-- Little-endian value of a whole byte string (the common core of the
unpack("<B"/"<H"/"<L"/"<Q") calls applied to an exact-length value). -/
def leNat : List Nat → Nat
  | [] => 0
  | b :: rest => b + 256 * leNat rest

/-- BaseIndexEntry.__init__ starting at recofs: a 16-bit key length, the key
bytes, a 16-bit value length, the value bytes. -/
def readRec (data : List Nat) (recofs : Nat) : Option (List Nat × List Nat) :=
  match le16 data recofs with
  | none => none
  | some keylen =>
    let k := pyslice data (recofs + 2) keylen
    match le16 data (recofs + 2 + keylen) with
    | none => none
    | some vallen => some (k, pyslice data (recofs + 2 + keylen + 2) vallen)

/-- Page16.LeafEntry descriptor at ofs, without applying prefix compression:
unpack_from("<BBHH") gives indent, unknown1, unknown, recofs; the record
starts at recofs+1 (a skipped zero byte).  Returns (indent, key suffix,
value). -/
def leafEntRaw16 (data : List Nat) (ofs : Nat) :
    Option (Nat × List Nat × List Nat) :=
  match data.drop ofs with
  | indent :: _ :: _ :: _ :: r4 :: r5 :: _ =>
    match readRec data (r4 + 256 * r5 + 1) with
    | some (ksuf, v) => some (indent, ksuf, v)
    | none => none
  | _ => none

/-- The descriptors of the first n leaf entries, starting at entry index i. -/
def rawLeafEnts16 (data : List Nat) : Nat → Nat → Option (List (Nat × List Nat × List Nat))
  | 0, _ => some []
  | n + 1, i =>
    match leafEntRaw16 data (6 * (1 + i)) with
    | none => none
    | some r => (rawLeafEnts16 data n (i + 1)).map (fun rest => r :: rest)

/-- The BasePage.__init__ leaf loop of Page16: decode n entries starting at
entry index i, reconstructing each key from the previous reconstructed key
("key[:self.indent] + self.key", the loop carries key = ent.key). -/
def leafEnts16 (data : List Nat) : Nat → List Nat → Nat →
    Option (List (List Nat × List Nat))
  | 0, _, _ => some []
  | n + 1, prevkey, i =>
    match leafEntRaw16 data (6 * (1 + i)) with
    | none => none
    | some (indent, ksuf, v) =>
      let k := prevkey.take indent ++ ksuf
      (leafEnts16 data n k (i + 1)).map (fun rest => (k, v) :: rest)

/-- The reconstruction the specification describes, as a standalone map from
the raw descriptors: each effective key is the first indent bytes of the
previous effective key concatenated with the stored suffix; the first entry
uses prev. -/
def reconEnts (prev : List Nat) : List (Nat × List Nat × List Nat) →
    List (List Nat × List Nat)
  | [] => []
  | (indent, ksuf, v) :: rest =>
    let k := prev.take indent ++ ksuf
    (k, v) :: reconEnts k rest

/-- BTree.Page16 applied to a leaf page (preceeding = 0): header
unpack_from("<LH"), count leaf entries, and the trailing
unknown/freeptr unpack_from("<LH", data, 6*(1+count)). -/
def decodeLeafPage16 (data : List Nat) : Option (List (List Nat × List Nat)) :=
  match le32 data 0, le16 data 4 with
  | some pre, some count =>
    if pre = 0 then
      match le32 data (6 * (1 + count)), le16 data (6 * (1 + count) + 4) with
      | some _, some _ => leafEnts16 data count [] 0
      | _, _ => none
    else none
  | _, _ => none

theorem leafEnts16_eq_recon (data : List Nat) :
    ∀ (n i : Nat) (prev : List Nat),
      leafEnts16 data n prev i = (rawLeafEnts16 data n i).map (reconEnts prev) := by
  intro n
  induction n with
  | zero => intro i prev; rfl
  | succ m ih =>
    intro i prev
    simp only [leafEnts16, rawLeafEnts16]
    cases hr : leafEntRaw16 data (6 * (1 + i)) with
    | none => rfl
    | some r =>
      obtain ⟨indent, ksuf, v⟩ := r
      simp only [ih (i + 1) (prev.take indent ++ ksuf)]
      cases rawLeafEnts16 data m (i + 1) with
      | none => rfl
      | some raws => simp [reconEnts]

/-- A concrete v1.6 leaf page: preceeding 0, two entries; entry 0 has
indent 0 and record at stored offset 23 (skip byte makes it 24), entry 1
has indent 5 and record at stored offset 37; record 0 is the key
"NamedNode" with value [170], record 1 the suffix "Ref" with value [187]. -/
def c4data : List Nat :=
  [0, 0, 0, 0, 2, 0,
   0, 0, 0, 0, 23, 0,
   5, 0, 0, 0, 37, 0,
   0, 0, 0, 0, 0, 0,
   9, 0, 78, 97, 109, 101, 100, 78, 111, 100, 101, 1, 0, 170,
   3, 0, 82, 101, 102, 1, 0, 187]

/-- C4: decoding a v1.6 leaf page reconstructs each effective key as the
first indent bytes of the previous entry's reconstructed key concatenated
with the entry's stored suffix, the first entry starting from the empty
previous key (decodeLeafPage16 runs the entry loop with prev = []); on the
concrete page with entries (indent 0, suffix "NamedNode") and (indent 5,
suffix "Ref") the reconstructed keys are "NamedNode" and "NamedRef". -/
theorem c4_leaf_prefix_keys :
    (∀ (data : List Nat) (n i : Nat) (prev : List Nat),
      leafEnts16 data n prev i = (rawLeafEnts16 data n i).map (reconEnts prev)) ∧
    rawLeafEnts16 c4data 2 0 =
      some [(0, [78, 97, 109, 101, 100, 78, 111, 100, 101], [170]),
            (5, [82, 101, 102], [187])] ∧
    decodeLeafPage16 c4data =
      some [([78, 97, 109, 101, 100, 78, 111, 100, 101], [170]),
            ([78, 97, 109, 101, 100, 82, 101, 102], [187])] := by
  refine ⟨fun data n i prev => leafEnts16_eq_recon data n i prev, by decide, by decide⟩

/-- A FileSection: a window [start, endp) over an underlying file with byte
contents, and the window-relative position curpos.  The underlying handle's
position is kept at start + curpos by the code, so it is not tracked
separately. -/
structure FileSection where
  contents : List Nat
  start : Nat
  endp : Nat
  curpos : Int
deriving DecidableEq, Repr

/-- FileSection.__init__: curpos starts at 0. -/
def fsInit (contents : List Nat) (start endp : Nat) : FileSection :=
  ⟨contents, start, endp, 0⟩

/-- FileSection.tell. -/
def fsTell (fs : FileSection) : Int := fs.curpos

/-- FileSection.read: want = min(size, end-start-curpos); non-positive want
reads nothing; otherwise the underlying file is read at start+curpos for
want bytes (short when the file itself ends) and curpos advances by the
number of bytes actually read. -/
def fsRead (fs : FileSection) (size : Int) : List Nat × FileSection :=
  let want : Int := min size ((fs.endp : Int) - (fs.start : Int) - fs.curpos)
  if want ≤ 0 then ([], fs)
  else
    let data := (fs.contents.drop ((fs.start : Int) + fs.curpos).toNat).take want.toNat
    (data, { fs with curpos := fs.curpos + data.length })

/-- The isvalidpos closure of FileSection.seek. -/
def isvalidpos (fs : FileSection) (offset : Int) : Bool :=
  decide (0 ≤ offset) && decide (offset ≤ (fs.endp : Int) - (fs.start : Int))

/-- FileSection.seek: whence 0 seeks from the window start, whence 1 from
the current position, whence 2 from the window end; each validates the
target with isvalidpos and raises (none) when it is outside; any other
whence leaves curpos unchanged. -/
def fsSeek (fs : FileSection) (offset whence : Int) : Option FileSection :=
  if whence = 0 then
    if isvalidpos fs offset then some { fs with curpos := offset } else none
  else if whence = 1 then
    if isvalidpos fs (fs.curpos + offset) then
      some { fs with curpos := fs.curpos + offset } else none
  else if whence = 2 then
    if isvalidpos fs ((fs.endp : Int) - (fs.start : Int) + offset) then
      some { fs with curpos := (fs.endp : Int) - (fs.start : Int) + offset }
    else none
  else some fs

/-- An operation on a FileSection. -/
inductive FsOp where
  | read (size : Int) : FsOp
  | seek (offset whence : Int) : FsOp
deriving DecidableEq, Repr

def fsStep (fs : FileSection) : FsOp → Option FileSection
  | .read n => some (fsRead fs n).2
  | .seek o w => fsSeek fs o w

/-- Run a sequence of reads and seeks; none as soon as one raises. -/
def fsRun (fs : FileSection) : List FsOp → Option FileSection
  | [] => some fs
  | op :: ops =>
    match fsStep fs op with
    | none => none
    | some fs2 => fsRun fs2 ops

/-- The window invariant: tell() lies in [0, end-start]. -/
def fsInv (fs : FileSection) : Prop :=
  0 ≤ fs.curpos ∧ fs.curpos ≤ (fs.endp : Int) - (fs.start : Int)

instance (fs : FileSection) : Decidable (fsInv fs) := by
  unfold fsInv
  infer_instance

theorem fsRead_inv {fs : FileSection} (h : fsInv fs) (size : Int) :
    fsInv (fsRead fs size).2 ∧
    ((fsRead fs size).1.length : Int) ≤ (fs.endp : Int) - (fs.start : Int) - fs.curpos := by
  obtain ⟨h0, h1⟩ := h
  by_cases hneg : min size ((fs.endp : Int) - (fs.start : Int) - fs.curpos) ≤ 0
  · have he : fsRead fs size = ([], fs) := by
      unfold fsRead
      rw [if_pos hneg]
    rw [he]
    exact ⟨⟨h0, h1⟩, by simp; omega⟩
  · set D : List Nat :=
      (fs.contents.drop ((fs.start : Int) + fs.curpos).toNat).take
        (min size ((fs.endp : Int) - (fs.start : Int) - fs.curpos)).toNat with hD
    have he : fsRead fs size = (D, { fs with curpos := fs.curpos + D.length }) := by
      unfold fsRead
      rw [if_neg hneg]
    rw [he]
    have hlen : D.length ≤
        (min size ((fs.endp : Int) - (fs.start : Int) - fs.curpos)).toNat := by
      rw [hD]
      exact List.length_take_le _ _
    have hwle : min size ((fs.endp : Int) - (fs.start : Int) - fs.curpos) ≤
        (fs.endp : Int) - (fs.start : Int) - fs.curpos := min_le_right _ _
    refine ⟨⟨?_, ?_⟩, ?_⟩
    · show (0 : Int) ≤ fs.curpos + (D.length : Int)
      omega
    · show fs.curpos + (D.length : Int) ≤ (fs.endp : Int) - (fs.start : Int)
      omega
    · show (D.length : Int) ≤ (fs.endp : Int) - (fs.start : Int) - fs.curpos
      omega

theorem fsSeek_inv {fs fs2 : FileSection} (offset whence : Int) (h : fsInv fs)
    (hs : fsSeek fs offset whence = some fs2) : fsInv fs2 := by
  unfold fsSeek at hs
  split_ifs at hs with h0 hv h1 hv1 h2 hv2
  · injection hs with h'
    subst h'
    simp only [isvalidpos, Bool.and_eq_true, decide_eq_true_eq] at hv
    exact ⟨hv.1, hv.2⟩
  · injection hs with h'
    subst h'
    simp only [isvalidpos, Bool.and_eq_true, decide_eq_true_eq] at hv1
    exact ⟨hv1.1, hv1.2⟩
  · injection hs with h'
    subst h'
    simp only [isvalidpos, Bool.and_eq_true, decide_eq_true_eq] at hv2
    exact ⟨hv2.1, hv2.2⟩
  · injection hs with h'
    subst h'
    exact h

theorem fsStep_inv {fs fs2 : FileSection} {op : FsOp} (h : fsInv fs)
    (hs : fsStep fs op = some fs2) : fsInv fs2 := by
  cases op with
  | read n =>
    simp only [fsStep] at hs
    injection hs with h'
    subst h'
    exact (fsRead_inv h n).1
  | seek o w =>
    exact fsSeek_inv o w h hs

theorem fsRun_inv : ∀ (ops : List FsOp) (fs fs2 : FileSection),
    fsInv fs → fsRun fs ops = some fs2 → fsInv fs2 := by
  intro ops
  induction ops with
  | nil =>
    intro fs fs2 h hr
    injection hr with h'
    subst h'
    exact h
  | cons op rest ih =>
    intro fs fs2 h hr
    simp only [fsRun] at hr
    cases hs : fsStep fs op with
    | none => rw [hs] at hr; cases hr
    | some fs1 =>
      rw [hs] at hr
      exact ih fs1 fs2 (fsStep_inv h hs) hr

theorem isvalidpos_iff (fs : FileSection) (t : Int) :
    isvalidpos fs t = true ↔
      (0 ≤ t ∧ t ≤ (fs.endp : Int) - (fs.start : Int)) := by
  simp [isvalidpos]

theorem fsStep_preserves_window {fs fs2 : FileSection} {op : FsOp}
    (hs : fsStep fs op = some fs2) : fs2.endp = fs.endp ∧ fs2.start = fs.start := by
  cases op with
  | read n =>
    simp only [fsStep] at hs
    injection hs with h'
    subst h'
    by_cases hneg : min n ((fs.endp : Int) - (fs.start : Int) - fs.curpos) ≤ 0
    · have he : fsRead fs n = ([], fs) := by
        unfold fsRead
        rw [if_pos hneg]
      rw [he]
      exact ⟨rfl, rfl⟩
    · set D : List Nat :=
        (fs.contents.drop ((fs.start : Int) + fs.curpos).toNat).take
          (min n ((fs.endp : Int) - (fs.start : Int) - fs.curpos)).toNat with hD
      have he : fsRead fs n = (D, { fs with curpos := fs.curpos + D.length }) := by
        unfold fsRead
        rw [if_neg hneg]
      rw [he]
      exact ⟨rfl, rfl⟩
  | seek o w =>
    simp only [fsStep, fsSeek] at hs
    split_ifs at hs <;> (injection hs with h'; subst h'; exact ⟨rfl, rfl⟩)

/-- C7: window safety of FileSection.  Starting from a state whose position
lies in [0, end-start], any sequence of reads and seeks that does not raise
leaves tell() in [0, end-start]; a single read returns at most
end-start-tell() bytes (reads are clamped at the window end, never
over-read); and a seek raises exactly when its target position — offset for
whence 0, tell()+offset for whence 1, end-start+offset for whence 2 — lies
outside [0, end-start]. -/
theorem c7_window_safety (fs : FileSection) (hinv : fsInv fs) :
    (∀ ops fs2, fsRun fs ops = some fs2 →
      0 ≤ fsTell fs2 ∧ fsTell fs2 ≤ (fs2.endp : Int) - (fs2.start : Int)) ∧
    (∀ size, ((fsRead fs size).1.length : Int) ≤
      (fs.endp : Int) - (fs.start : Int) - fsTell fs) ∧
    (∀ o : Int, fsSeek fs o 0 = none ↔
      ¬ (0 ≤ o ∧ o ≤ (fs.endp : Int) - (fs.start : Int))) ∧
    (∀ o : Int, fsSeek fs o 1 = none ↔
      ¬ (0 ≤ fsTell fs + o ∧ fsTell fs + o ≤ (fs.endp : Int) - (fs.start : Int))) ∧
    (∀ o : Int, fsSeek fs o 2 = none ↔
      ¬ (0 ≤ (fs.endp : Int) - (fs.start : Int) + o ∧
        (fs.endp : Int) - (fs.start : Int) + o ≤ (fs.endp : Int) - (fs.start : Int))) := by
  refine ⟨?_, ?_, ?_, ?_, ?_⟩
  · intro ops fs2 hr
    exact fsRun_inv ops fs fs2 hinv hr
  · intro size
    exact (fsRead_inv hinv size).2
  · intro o
    rw [← isvalidpos_iff]
    cases hv : isvalidpos fs o with
    | true => simp [fsSeek, hv]
    | false => simp [fsSeek, hv]
  · intro o
    rw [← isvalidpos_iff]
    cases hv : isvalidpos fs (fs.curpos + o) with
    | true => simp [fsSeek, fsTell, hv]
    | false => simp [fsSeek, fsTell, hv]
  · intro o
    rw [← isvalidpos_iff]
    cases hv : isvalidpos fs ((fs.endp : Int) - (fs.start : Int) + o) with
    | true => simp [fsSeek, hv]
    | false => simp [fsSeek, hv]

/-- Witness for C7 on the FileSection of the library's own unit test: the
window [3, 11) over "0123456789abcdef" with the test's sequence of reads and
seeks ends with tell() = 8 ∈ [0, 8], and seek(9) fails. -/
theorem c7_window_safety_witness :
    (0 ≤ fsTell ⟨[48, 49, 50, 51, 52, 53, 54, 55, 56, 57, 97, 98, 99, 100, 101, 102],
        3, 11, 8⟩ ∧
      fsTell ⟨[48, 49, 50, 51, 52, 53, 54, 55, 56, 57, 97, 98, 99, 100, 101, 102],
        3, 11, 8⟩ ≤ (11 : Int) - 3) ∧
    fsSeek ⟨[48, 49, 50, 51, 52, 53, 54, 55, 56, 57, 97, 98, 99, 100, 101, 102],
      3, 11, 8⟩ 9 0 = none := by
  have h := c7_window_safety
    (fsInit [48, 49, 50, 51, 52, 53, 54, 55, 56, 57, 97, 98, 99, 100, 101, 102] 3 11)
    (by decide)
  constructor
  · have h1 := h.1
      [FsOp.read 3, FsOp.read 8, FsOp.read 8, FsOp.seek (-1) 2, FsOp.read 8,
       FsOp.seek 3 0, FsOp.read 2, FsOp.seek (-2) 1, FsOp.read 2,
       FsOp.seek 2 1, FsOp.read 2, FsOp.seek 8 0, FsOp.read 1]
      ⟨[48, 49, 50, 51, 52, 53, 54, 55, 56, 57, 97, 98, 99, 100, 101, 102], 3, 11, 8⟩
      (by decide)
    exact ⟨h1.1, by exact_mod_cast h1.2⟩
  · have h2 := c7_window_safety
      ⟨[48, 49, 50, 51, 52, 53, 54, 55, 56, 57, 97, 98, 99, 100, 101, 102], 3, 11, 8⟩
      (by decide)
    exact (h2.2.2.1 9).mpr (by decide)

def le16d (data : List Nat) (ofs : Nat) : Nat := (le16 data ofs).getD 0

def le32d (data : List Nat) (ofs : Nat) : Nat := (le32 data ofs).getD 0

def le64d (data : List Nat) (ofs : Nat) : Nat := (le64 data ofs).getD 0

/-- IDBFile.__init__: read 0x100 header bytes, check the magic, unpack
"<6LH6L" at offset 6 (any shorter buffer raises: none).  Without the
sentinel 0xAABBCCDD at offset 26 the file is version 0 with five offsets
and zero checksums; with it and file version below 5, the five 32-bit
offsets at 6..22 and checksums at 36..52 are extended by the id2 offset
unpacked at 56 and its checksum at 60, 16-bit when the version is 1 and
32-bit otherwise; from version 5 on the wide layout "<QQLLHQQQQ5LQL" is
used.  Result: (fileversion, offsets, checksums). -/
def parseIDB (data : List Nat) : Option (Nat × List Nat × List Nat) :=
  let hdrdata := data.take 256
  if pyslice hdrdata 0 4 = [73, 68, 65, 48] ∨
      pyslice hdrdata 0 4 = [73, 68, 65, 49] ∨
      pyslice hdrdata 0 4 = [73, 68, 65, 50] then
    if hdrdata.length < 56 then none
    else if le32d hdrdata 26 ≠ 0xaabbccdd then
      some (0, [le32d hdrdata 6, le32d hdrdata 10, le32d hdrdata 14,
        le32d hdrdata 18, le32d hdrdata 22, 0], [0, 0, 0, 0, 0, 0])
    else if le16d hdrdata 30 < 5 then
      if hdrdata.length < 60 + (if le16d hdrdata 30 = 1 then 2 else 4) then none
      else
        some (le16d hdrdata 30,
          [le32d hdrdata 6, le32d hdrdata 10, le32d hdrdata 14,
           le32d hdrdata 18, le32d hdrdata 22, le32d hdrdata 56],
          [le32d hdrdata 36, le32d hdrdata 40, le32d hdrdata 44,
           le32d hdrdata 48, le32d hdrdata 52,
           if le16d hdrdata 30 = 1 then le16d hdrdata 60 else le32d hdrdata 60])
    else
      if hdrdata.length < 96 then none
      else
        some (le16d hdrdata 30,
          [le64d hdrdata 6, le64d hdrdata 14, le64d hdrdata 32,
           le64d hdrdata 40, le64d hdrdata 48, le32d hdrdata 80],
          [le64d hdrdata 56, le32d hdrdata 64, le32d hdrdata 68,
           le32d hdrdata 72, le32d hdrdata 76, le64d hdrdata 84])
  else none

/-- C8: for a header with a valid magic, the sentinel 0xAABBCCDD at offset
26 and a file version below 5 at offset 30, decoding yields the five 32-bit
section offsets at 6, 10, 14, 18, 22 plus the trailing id2 offset read at
byte offset 56, and the id2 checksum read at 60 is 16 bits wide exactly when
the file version is 1 and 32 bits wide for the other versions below 5. -/
theorem c8_header_v_lt_5 (data : List Nat) (v : Nat)
    (hlen : data.length ≤ 256) (hlen2 : 64 ≤ data.length)
    (hmagic : pyslice data 0 4 = [73, 68, 65, 48] ∨
      pyslice data 0 4 = [73, 68, 65, 49] ∨ pyslice data 0 4 = [73, 68, 65, 50])
    (hsent : le32d data 26 = 0xaabbccdd)
    (hv : le16d data 30 = v) (hv5 : v < 5) :
    parseIDB data = some (v,
      [le32d data 6, le32d data 10, le32d data 14, le32d data 18,
       le32d data 22, le32d data 56],
      [le32d data 36, le32d data 40, le32d data 44, le32d data 48,
       le32d data 52, if v = 1 then le16d data 60 else le32d data 60]) := by
  have ht : data.take 256 = data := List.take_of_length_le hlen
  simp only [parseIDB, ht]
  rw [if_pos hmagic, if_neg (by omega), hsent, if_neg (by decide), hv]
  rw [if_pos hv5]
  rw [if_neg (by split <;> omega)]

/-- A concrete 64-byte version-1 header: magic IDA1, offsets 1..5, sentinel
at 26, version 1 at 30, checksums 11..15 at 36..52, id2 offset 6 at 56 and
16-bit id2 checksum 16 at 60. -/
def c8data : List Nat :=
  [73, 68, 65, 49, 0, 0,
   1, 0, 0, 0, 2, 0, 0, 0, 3, 0, 0, 0, 4, 0, 0, 0, 5, 0, 0, 0,
   221, 204, 187, 170, 1, 0, 0, 0, 0, 0,
   11, 0, 0, 0, 12, 0, 0, 0, 13, 0, 0, 0, 14, 0, 0, 0, 15, 0, 0, 0,
   6, 0, 0, 0, 16, 0, 0, 0]

/-- Witness for C8 on the concrete version-1 header. -/
theorem c8_header_v_lt_5_witness :
    c8data.length = 64 ∧
    parseIDB c8data = some (1, [1, 2, 3, 4, 5, 6], [11, 12, 13, 14, 15, 16]) := by
  refine ⟨by decide, ?_⟩
  have h := c8_header_v_lt_5 c8data 1 (by decide) (by decide)
    (by decide) (by decide) (by decide) (by decide)
  exact h

/-! ID0File overlay.  The word size w is 8 for IDA2 containers and 4
otherwise, and keyfmt is ">B" ++ fmt ++ "s" ++ fmt.lower() with fmt = "Q"
or "L".  An argument of a Python call is an int or a str (strs are carried
as their utf-8 bytes). -/

inductive MArg where
  | mInt (n : Int) : MArg
  | mStr (s : List Nat) : MArg
deriving DecidableEq, Repr

/-- Big-endian bytes of a value, fixed width. -/
def beBytes : Nat → Nat → List Nat
  | 0, _ => []
  | w + 1, n => (n / 256 ^ w) % 256 :: beBytes w n

/-- struct.pack of one unsigned big-endian word ("Q"/"L"): out-of-range
values raise. -/
def packBE (w : Nat) (n : Int) : Option (List Nat) :=
  if 0 ≤ n ∧ n < (256 ^ w : Nat) then some (beBytes w n.toNat) else none

/-- struct.pack of one signed big-endian word ("q"/"l"): two's complement,
out-of-range values raise. -/
def packBEs (w : Nat) (n : Int) : Option (List Nat) :=
  if -((2 ^ (8 * w - 1) : Nat) : Int) ≤ n ∧ n < ((2 ^ (8 * w - 1) : Nat) : Int) then
    some (beBytes w (n % ((2 ^ (8 * w) : Nat) : Int)).toNat)
  else none

/-- ID0File.makekey: pack(keyfmt[:2+len(args)], 0x2e, *args) after utf-8
encoding args[1].  The first argument is packed with the integer word
format, the second with "s" (a SINGLE byte: count 1, truncated or
zero-padded), the third with the signed word format; a str where an int is
required (or vice versa), an out-of-range int, or more than three arguments
raises (none). -/
def makekey (w : Nat) (args : List MArg) : Option (List Nat) :=
  match args with
  | [] => some [0x2e]
  | [MArg.mInt n] => (packBE w n).map (fun b => 0x2e :: b)
  | [MArg.mStr _] => none
  | MArg.mInt n :: MArg.mStr s :: rest =>
    match rest with
    | [] => (packBE w n).map (fun b => 0x2e :: b ++ [s.headD 0])
    | [MArg.mInt m] =>
      match packBE w n, packBEs w m with
      | some b, some c => some (0x2e :: b ++ [s.headD 0] ++ c)
      | _, _ => none
    | [MArg.mStr _] => none
    | _ => none
  | MArg.mInt _ :: MArg.mInt _ :: _ => none
  | MArg.mStr _ :: _ => none

/-- ID0File.nextkey: key[:-1] + pack("B", unpack_from("B", key, -1)[0] + 1).
Unpacking the last byte of an empty key raises, and packing 256 into "B"
raises, so a key ending in 0xFF has no next key. -/
def nextkey (key : List Nat) : Option (List Nat) :=
  match key.getLast? with
  | none => none
  | some b => if b + 1 < 256 then some (key.dropLast ++ [b + 1]) else none

/-- ID0File.nodeByName: look up the raw key b'N' + name and decode the value
with unpack('<'+fmt), which insists on a value of exactly the word size. -/
def nodeByName (root : Page) (w : Nat) (name : List Nat) : Option (Option Nat) :=
  match findT root Rel.eq (78 :: name) with
  | none => none
  | some none => some none
  | some (some cur) =>
    match cursorGetval cur with
    | none => none
    | some v => if v.length = w then some (some (leNat v)) else none

/-- ID0File.bytes on argument lists (the cursor variant is not modelled):
find the record matching the composite key exactly; None when absent. -/
def bytesF (root : Page) (w : Nat) (args : List MArg) : Option (Option (List Nat)) :=
  match makekey w args with
  | none => none
  | some k =>
    match findT root Rel.eq k with
    | none => none
    | some none => some none
    | some (some cur) =>
      match cursorGetval cur with
      | none => none
      | some v => some (some v)

/-- ID0File.int: decode the value little-endian when its length is 1, 2, 4
or 8; any other length prints a message and falls through, returning None
just as a missing record does. -/
def intF (root : Page) (w : Nat) (args : List MArg) : Option (Option Nat) :=
  match bytesF root w args with
  | none => none
  | some none => some none
  | some (some data) =>
    if data.length = 1 ∨ data.length = 2 ∨ data.length = 4 ∨ data.length = 8
    then some (some (leNat data))
    else some none

/-- The while loop of ID0File.blob: while cur.getkey() < endkey accumulate
cur.getval() and advance.  getkey on an exhausted cursor raises (none); the
fuel only bounds the number of records a finite tree can supply. -/
def blobLoop (endkey : Key) : Nat → Stack → List Nat → Option (List Nat)
  | 0, _, _ => none
  | fuel + 1, s, acc =>
    match cursorGetkey s with
    | none => none
    | some k =>
      if keyLt k endkey then
        match cursorGetval s, nextC s with
        | some v, some s2 => blobLoop endkey fuel s2 (acc ++ v)
        | _, _ => none
      else some acc

/-- ID0File.blob: concatenate the values of the records from the first key
≥ makekey(args) up to (excluding) the incremented key. -/
def blobF (root : Page) (w : Nat) (fuel : Nat) (args : List MArg) : Option (List Nat) :=
  match makekey w args with
  | none => none
  | some startkey =>
    match nextkey startkey with
    | none => none
    | some endkey =>
      match findT root Rel.ge startkey with
      | none => none
      | some none => none
      | some (some cur) => blobLoop endkey fuel cur []

theorem nodeByName_found {root : Page} {w : Nat} {name : List Nat} {cur : Stack}
    (hf : findT root Rel.eq (78 :: name) = some (some cur)) {v : Val}
    (hv : cursorGetval cur = some v) :
    nodeByName root w name =
      if v.length = w then some (some (leNat v)) else none := by
  unfold nodeByName
  rw [hf]
  show (match cursorGetval cur with
    | none => none
    | some v => if v.length = w then some (some (leNat v)) else none) = _
  rw [hv]

theorem bytesF_found {root : Page} {w : Nat} {args : List MArg} {k : List Nat}
    {cur : Stack} {v : Val} (hmk : makekey w args = some k)
    (hf : findT root Rel.eq k = some (some cur)) (hv : cursorGetval cur = some v) :
    bytesF root w args = some (some v) := by
  unfold bytesF
  rw [hmk]
  show (match findT root Rel.eq k with
    | none => none
    | some none => some none
    | some (some cur) =>
      match cursorGetval cur with
      | none => none
      | some v => some (some v)) = _
  rw [hf]
  show (match cursorGetval cur with
    | none => none
    | some v => some (some v)) = _
  rw [hv]

theorem bytesF_missing {root : Page} {w : Nat} {args : List MArg} {k : List Nat}
    (hmk : makekey w args = some k) (hf : findT root Rel.eq k = some none) :
    bytesF root w args = some none := by
  unfold bytesF
  rw [hmk]
  show (match findT root Rel.eq k with
    | none => none
    | some none => some none
    | some (some cur) =>
      match cursorGetval cur with
      | none => none
      | some v => some (some v)) = _
  rw [hf]

theorem intF_of_bytes {root : Page} {w : Nat} {args : List MArg} {v : Val}
    (hb : bytesF root w args = some (some v)) :
    intF root w args =
      some (if v.length = 1 ∨ v.length = 2 ∨ v.length = 4 ∨ v.length = 8
        then some (leNat v) else none) := by
  unfold intF
  rw [hb]
  show (if v.length = 1 ∨ v.length = 2 ∨ v.length = 4 ∨ v.length = 8
    then some (some (leNat v)) else some none) = _
  by_cases hc : v.length = 1 ∨ v.length = 2 ∨ v.length = 4 ∨ v.length = 8
  · rw [if_pos hc, if_pos hc]
  · rw [if_neg hc, if_neg hc]

theorem intF_of_missing {root : Page} {w : Nat} {args : List MArg}
    (hb : bytesF root w args = some none) : intF root w args = some none := by
  unfold intF
  rw [hb]

theorem makekey_str_first (w : Nat) (s : List Nat) (rest : List MArg) :
    makekey w (MArg.mStr s :: rest) = none := by
  cases rest with
  | nil => rfl
  | cons a r => rfl

/-- C9 (corrected): int('N', name) is NOT node_by_name(name): makekey packs
its first argument with an integer format, so int with a string tag always
raises (none), for every tree; node_by_name instead looks up the raw key
b'N' + name and returns the little-endian word stored there (None when the
key is absent, an error when the stored value is not exactly one word). -/
theorem c9_nodeByName_vs_int (root : Page) (w : Nat) (name : List Nat)
    (hwf : wfB root = true) :
    (∀ (s : List Nat) (rest : List MArg),
      intF root w (MArg.mStr s :: rest) = none) ∧
    (∀ v : Val, (78 :: name, v) ∈ root.flatten → v.length = w →
      nodeByName root w name = some (some (leNat v))) ∧
    ((∀ e ∈ root.flatten, e.1 ≠ 78 :: name) →
      nodeByName root w name = some none) := by
  refine ⟨?_, ?_, ?_⟩
  · intro s rest
    unfold intF bytesF
    rw [makekey_str_first]
  · intro v hmem hlen
    obtain ⟨cur, hf, _, _, hv, _⟩ := findT_eq_found hwf hmem
    rw [nodeByName_found hf hv, if_pos hlen]
  · intro hnok
    unfold nodeByName
    rw [findT_eq_missing hwf hnok]

/-- Witness for C9 on a one-record tree holding key b'N' ++ "f" with the
little-endian u32 value 1. -/
theorem c9_nodeByName_vs_int_witness :
    nodeByName (Page.leaf [([78, 102], [1, 0, 0, 0])]) 4 [102] = some (some 1) ∧
    intF (Page.leaf [([78, 102], [1, 0, 0, 0])]) 4
      [MArg.mStr [78], MArg.mStr [102]] = none := by
  have h := c9_nodeByName_vs_int (Page.leaf [([78, 102], [1, 0, 0, 0])]) 4 [102]
    (by decide)
  exact ⟨h.2.1 [1, 0, 0, 0] (by simp [Page.flatten]) (by decide),
    h.1 [78] [MArg.mStr [102]]⟩

/-- C9 counterexample to the claim as stated: on a tree holding key
b'N' ++ "g", node_by_name("g") returns the stored word while int('N', "g")
raises (the tag string cannot be packed with the integer key format) — the
two are not equal. -/
theorem c9_counterexample :
    nodeByName (Page.leaf [([78, 103], [2, 0, 0, 0])]) 4 [103] = some (some 2) ∧
    intF (Page.leaf [([78, 103], [2, 0, 0, 0])]) 4
      [MArg.mStr [78], MArg.mStr [103]] = none := by
  constructor
  · obtain ⟨cur, hf, _, _, hv, _⟩ := @findT_eq_found (Page.leaf [([78, 103], [2, 0, 0, 0])])
      [78, 103] [2, 0, 0, 0] (by decide) (by simp [Page.flatten])
    rw [nodeByName_found hf hv, if_pos (by decide)]
    rfl
  · rfl

/-- C10 (corrected): int decodes a matching record's value little-endian
when its length is 1, 2, 4 or 8; for a value of any OTHER length it does not
fail — it prints a message and returns None, indistinguishable from the
missing-record case; None is returned both when no record matches and when
the matching value has an unsupported length. -/
theorem c10_int_lengths (root : Page) (w : Nat) (args : List MArg)
    (k : List Nat) (hwf : wfB root = true) (hmk : makekey w args = some k) :
    (∀ data : Val, (k, data) ∈ root.flatten →
      intF root w args =
        some (if data.length = 1 ∨ data.length = 2 ∨ data.length = 4 ∨
            data.length = 8
          then some (leNat data) else none)) ∧
    ((∀ e ∈ root.flatten, e.1 ≠ k) → intF root w args = some none) := by
  constructor
  · intro data hmem
    obtain ⟨cur, hf, _, _, hv, _⟩ := findT_eq_found hwf hmem
    exact intF_of_bytes (bytesF_found hmk hf hv)
  · intro hnok
    exact intF_of_missing (bytesF_missing hmk (findT_eq_missing hwf hnok))

/-- Witness for C10: a u16 value [5, 0] under a makekey-built key decodes to
the integer 5. -/
theorem c10_int_lengths_witness :
    makekey 4 [MArg.mInt 1, MArg.mStr [66], MArg.mInt 0] =
      some [46, 0, 0, 0, 1, 66, 0, 0, 0, 0] ∧
    intF (Page.leaf [([46, 0, 0, 0, 1, 66, 0, 0, 0, 0], [5, 0])]) 4
      [MArg.mInt 1, MArg.mStr [66], MArg.mInt 0] = some (some 5) := by
  refine ⟨by decide, ?_⟩
  have h := (c10_int_lengths (Page.leaf [([46, 0, 0, 0, 1, 66, 0, 0, 0, 0], [5, 0])])
    4 [MArg.mInt 1, MArg.mStr [66], MArg.mInt 0] [46, 0, 0, 0, 1, 66, 0, 0, 0, 0]
    (by decide) (by decide)).1 [5, 0] (by simp [Page.flatten])
  simpa using h

/-- C10 counterexample to the claim as stated: a matching record whose value
has length 3 makes int return None (no BadInt failure), even though the
record exists — so None does not imply a missing record. -/
theorem c10_counterexample :
    ([46, 0, 0, 0, 1, 67, 0, 0, 0, 0], [1, 2, 3]) ∈
      (Page.leaf [([46, 0, 0, 0, 1, 67, 0, 0, 0, 0], [1, 2, 3])]).flatten ∧
    intF (Page.leaf [([46, 0, 0, 0, 1, 67, 0, 0, 0, 0], [1, 2, 3])]) 4
      [MArg.mInt 1, MArg.mStr [67], MArg.mInt 0] = some none := by
  refine ⟨by simp [Page.flatten], ?_⟩
  obtain ⟨cur, hf, _, _, hv, _⟩ := @findT_eq_found
    (Page.leaf [([46, 0, 0, 0, 1, 67, 0, 0, 0, 0], [1, 2, 3])])
    [46, 0, 0, 0, 1, 67, 0, 0, 0, 0] [1, 2, 3]
    (by decide) (by simp [Page.flatten])
  rw [intF_of_bytes (bytesF_found (by decide) hf hv), if_neg (by decide)]

theorem keyLt_append_last (p : List Nat) (b c : Nat) (h : b < c) :
    keyLt (p ++ [b]) (p ++ [c]) = true := by
  induction p with
  | nil => simp [keyLt, h]
  | cons x xs ih => simp [keyLt, ih]

theorem keyLt_nextkey {sk ek : List Nat} (h : nextkey sk = some ek) :
    keyLt sk ek = true := by
  unfold nextkey at h
  cases hl : sk.getLast? with
  | none => rw [hl] at h; cases h
  | some b =>
    rw [hl] at h
    have h2 : (if b + 1 < 256 then some (sk.dropLast ++ [b + 1]) else none) =
        some ek := h
    split_ifs at h2 with hb
    · injection h2 with h'
      subst h'
      nth_rewrite 1 [(List.dropLast_append_getLast? b hl).symm]
      exact keyLt_append_last _ b (b + 1) (by omega)

theorem takeWhile_eq_filter_of_sorted {R : List (Key × Val)} (hs : sortedRecs R)
    (ek : Key) :
    R.takeWhile (fun e => keyLt e.1 ek) = R.filter (fun e => keyLt e.1 ek) := by
  induction R with
  | nil => rfl
  | cons r rest ih =>
    have hall : ∀ x ∈ rest, keyLt r.1 x.1 = true := by
      intro x hx
      exact (List.pairwise_cons.mp hs).1 x hx
    have hsrest : sortedRecs rest := (List.pairwise_cons.mp hs).2
    cases hke : keyLt r.1 ek with
    | true =>
      rw [List.takeWhile_cons, if_pos hke]
      rw [List.filter_cons, if_pos hke]
      rw [ih hsrest]
    | false =>
      rw [List.takeWhile_cons, if_neg (by simp [hke])]
      rw [List.filter_cons, if_neg (by simp [hke])]
      rw [show rest.filter (fun e => keyLt e.1 ek) = [] from ?_]
      apply List.filter_eq_nil.mpr
      intro x hx
      cases hxe : keyLt x.1 ek
      · simp
      · exfalso
        have := keyLt_trans (hall x hx) hxe
        exact Bool.false_ne_true (hke.symm.trans this)

theorem blobF_eq_loop {root : Page} {w fuel : Nat} {args : List MArg}
    {sk ek : List Nat} {cur : Stack} (hmk : makekey w args = some sk)
    (hnk : nextkey sk = some ek) (hf : findT root Rel.ge sk = some (some cur)) :
    blobF root w fuel args = blobLoop ek fuel cur [] := by
  unfold blobF
  rw [hmk]
  show (match nextkey sk with
    | none => none
    | some endkey =>
      match findT root Rel.ge sk with
      | none => none
      | some none => none
      | some (some cur) => blobLoop endkey fuel cur []) = _
  rw [hnk]
  show (match findT root Rel.ge sk with
    | none => none
    | some none => none
    | some (some cur) => blobLoop ek fuel cur []) = _
  rw [hf]

/-- The blob while-loop consumes exactly the prefix of the cursor's
remaining records whose keys are below endkey, provided some remaining
record reaches endkey (otherwise the loop runs off the tree and getkey
raises). -/
theorem blobLoop_spec {root : Page} {ek : Key} :
    ∀ (R : List (Key × Val)) (s : Stack) (acc : List Nat) (fuel : Nat),
      root.pagesNonempty = true → Valid root s → remaining s = R →
      (∃ r ∈ R, keyLt r.1 ek = false) → R.length < fuel →
      blobLoop ek fuel s acc =
        some (acc ++ ((R.takeWhile (fun e => keyLt e.1 ek)).map Prod.snd).join) := by
  intro R
  induction R with
  | nil =>
    intro s acc fuel _ _ _ hex _
    obtain ⟨r, hr, _⟩ := hex
    cases hr
  | cons r rest ih =>
    intro s acc fuel hroot hv hrem hex hfuel
    obtain ⟨r', rs, hrem', hk, hv'⟩ := valid_getkey_getval hv
    rw [hrem] at hrem'
    injection hrem' with h1 h2
    subst h1
    subst h2
    cases fuel with
    | zero => omega
    | succ f =>
      simp only [blobLoop]
      rw [hk]
      show (if keyLt r.1 ek = true then
          match cursorGetval s, nextC s with
          | some v, some s2 => blobLoop ek f s2 (acc ++ v)
          | _, _ => none
        else some acc) = _
      cases hke : keyLt r.1 ek with
      | false =>
        rw [if_neg (by simp [hke])]
        rw [List.takeWhile_cons, if_neg (by simp [hke])]
        simp
      | true =>
        rw [if_pos rfl]
        rw [hv']
        obtain ⟨s2, hn, hcase⟩ := next_step hroot hv
        rw [hn]
        show blobLoop ek f s2 (acc ++ r.2) = _
        rw [List.takeWhile_cons, if_pos hke]
        rcases hcase with ⟨htail, hs2⟩ | ⟨hv2, hrem2⟩
        · rw [hrem] at htail
          simp only [List.tail_cons] at htail
          subst htail
          obtain ⟨r'', hr'', hf''⟩ := hex
          rw [List.mem_singleton] at hr''
          subst hr''
          simp [hke] at hf''
        · rw [hrem] at hrem2
          simp only [List.tail_cons] at hrem2
          have hex2 : ∃ x ∈ rest, keyLt x.1 ek = false := by
            obtain ⟨r'', hr'', hf''⟩ := hex
            rcases List.mem_cons.mp hr'' with heq | hmem
            · subst heq
              simp [hke] at hf''
            · exact ⟨r'', hmem, hf''⟩
          rw [ih s2 (acc ++ r.2) f hroot hv2 hrem2 hex2 (by simpa using Nat.lt_of_succ_lt_succ hfuel)]
          simp [List.append_assoc]

/-- C6 (corrected): when the composite start key does not end in 0xFF and
some record of the tree reaches the incremented end key, blob returns the
concatenation of the values of the records with start_key ≤ key < end_key.
A start key ending in 0xFF does NOT make blob terminate early: incrementing
its last byte raises struct.error inside nextkey, so blob fails before
reading anything; and without a record at or past the end key the loop runs
off the tree and getkey raises. -/
theorem c6_blob (root : Page) (w fuel : Nat) (args : List MArg)
    (sk ek : List Nat) (hwf : wfB root = true)
    (hmk : makekey w args = some sk) (hnk : nextkey sk = some ek)
    (hterm : ∃ r ∈ root.flatten, keyLt r.1 ek = false)
    (hfuel : root.flatten.length < fuel) :
    blobF root w fuel args =
      some (((root.flatten.filter
        (fun e => !keyLt e.1 sk && keyLt e.1 ek)).map Prod.snd).join) := by
  have hske : keyLt sk ek = true := keyLt_nextkey hnk
  obtain ⟨s, hf, hcase⟩ := findT_ge_spec hwf sk
  obtain ⟨r0, hr0, hf0⟩ := hterm
  have hr0ge : (!keyLt r0.1 sk) = true := by
    cases hlt : keyLt r0.1 sk
    · rfl
    · exact absurd ((keyLt_trans hlt hske).symm.trans hf0).symm Bool.false_ne_true
  have hr0mem : r0 ∈ geF root.flatten sk := by
    unfold geF
    exact List.mem_filter.mpr ⟨hr0, hr0ge⟩
  rcases hcase with ⟨hs, hge⟩ | ⟨hv, hrem⟩
  · rw [hge] at hr0mem
    cases hr0mem
  · rw [blobF_eq_loop hmk hnk hf]
    have hsorted : sortedRecs root.flatten := wfB_sorted hwf
    have hlenf : (geF root.flatten sk).length ≤ root.flatten.length :=
      List.length_filter_le _ _
    rw [blobLoop_spec (geF root.flatten sk) s [] fuel (wfB_nonempty hwf) hv hrem
      ⟨r0, hr0mem, hf0⟩ (by omega)]
    have hsg : sortedRecs (geF root.flatten sk) :=
      List.Pairwise.sublist (List.filter_sublist _) hsorted
    rw [takeWhile_eq_filter_of_sorted hsg ek]
    unfold geF
    rw [List.filter_filter]
    rw [List.filter_congr (fun e _ => by rw [Bool.and_comm])]
    simp

/-- Witness for C6 on a two-record tree: the record at the start key is
collected, the record past the incremented key stops the loop. -/
theorem c6_blob_witness :
    makekey 4 [MArg.mInt 1, MArg.mStr [65], MArg.mInt 0] =
      some [46, 0, 0, 0, 1, 65, 0, 0, 0, 0] ∧
    nextkey [46, 0, 0, 0, 1, 65, 0, 0, 0, 0] =
      some [46, 0, 0, 0, 1, 65, 0, 0, 0, 1] ∧
    blobF (Page.leaf [([46, 0, 0, 0, 1, 65, 0, 0, 0, 0], [9, 9]),
        ([46, 0, 0, 0, 1, 65, 0, 0, 0, 2], [7])]) 4 3
      [MArg.mInt 1, MArg.mStr [65], MArg.mInt 0] = some [9, 9] := by
  refine ⟨by decide, by decide, ?_⟩
  have h := c6_blob
    (Page.leaf [([46, 0, 0, 0, 1, 65, 0, 0, 0, 0], [9, 9]),
      ([46, 0, 0, 0, 1, 65, 0, 0, 0, 2], [7])]) 4 3
    [MArg.mInt 1, MArg.mStr [65], MArg.mInt 0]
    [46, 0, 0, 0, 1, 65, 0, 0, 0, 0] [46, 0, 0, 0, 1, 65, 0, 0, 0, 1]
    (by decide) (by decide) (by decide)
    ⟨([46, 0, 0, 0, 1, 65, 0, 0, 0, 2], [7]), by simp [Page.flatten], by decide⟩
    (by simp [Page.flatten])
  simpa using h

/-- C6 counterexample to the claim as stated: a subkey of -1 makes the
composite start key end in 0xFF; nextkey then raises (pack("B", 256)), so
blob fails on EVERY tree instead of terminating early with a partial
concatenation. -/
theorem c6_counterexample :
    makekey 4 [MArg.mInt 1, MArg.mStr [65], MArg.mInt (-1)] =
      some [46, 0, 0, 0, 1, 65, 255, 255, 255, 255] ∧
    nextkey [46, 0, 0, 0, 1, 65, 255, 255, 255, 255] = none ∧
    blobF (Page.leaf [([46, 0, 0, 0, 1, 65, 255, 255, 255, 255], [7])]) 4 2
      [MArg.mInt 1, MArg.mStr [65], MArg.mInt (-1)] = none := by
  exact ⟨by decide, by decide, rfl⟩

/-- Witness for C2 on a concrete two-level tree: find eq hits the record at
key [20] (its cursor reads back value [1]), and find eq on the absent key
[15] returns None. -/
theorem c2_find_relational_witness :
    Option.map (Option.map cursorGetval)
      (findT (Page.node (Page.leaf [([10], [0])])
        [([20], [1], Page.leaf [([30], [2])])]) Rel.eq [20]) =
      some (some (some [1])) ∧
    findT (Page.node (Page.leaf [([10], [0])])
      [([20], [1], Page.leaf [([30], [2])])]) Rel.eq [15] = some none := by
  constructor
  · obtain ⟨s, hf, _, hv⟩ := (c2_find_relational (Page.node (Page.leaf [([10], [0])])
      [([20], [1], Page.leaf [([30], [2])])]) [20] (by decide)).1 [1] (by decide)
    rw [hf]
    simp [hv]
  · exact (c2_find_relational (Page.node (Page.leaf [([10], [0])])
      [([20], [1], Page.leaf [([30], [2])])]) [15] (by decide)).2.1 (by decide)

/-- Witness for C3 on the same shape of tree: the scan from find ge of the
empty key yields all three records in ascending key order. -/
theorem c3_full_scan_witness :
    Option.map (Option.map (scanRecs 3))
      (findT (Page.node (Page.leaf [([10], [0])])
        [([20], [1], Page.leaf [([30], [2])])]) Rel.ge []) =
      some (some (some [([10], [0]), ([20], [1]), ([30], [2])])) ∧
    ascB [[10], [20], [30]] = true := by
  obtain ⟨s, hf, hscan, _, hasc, _⟩ := c3_full_scan
    ⟨Page.node (Page.leaf [([10], [0])]) [([20], [1], Page.leaf [([30], [2])])], 3⟩
    (by decide)
  refine ⟨?_, by decide⟩
  rw [hf]
  show some (some (scanRecs 3 s)) = _
  rw [hscan]
  rfl

end Idb
